import Mathlib

/-!
Shallow embedding of src/backend/Scripts/general_notes_v3.py (together with
the parent-index routine of src/backend/Scripts/general_notes_v2.py): the
document hierarchy reconstruction engine that ingests the "General Notes"
of the tariff schedule PDF and persists a tree of nodes.

Text is modelled as lists of characters (abbrev Str).  Constructs of the
Python runtime and of third-party libraries that the script calls with
literal arguments (the regular expressions appearing in the script,
str.strip / str.lower / str.upper / str.splitlines, the dict comprehension
building the header lookup, and roman.fromRoman) are modelled semantically
next to the functions that use them.  The persistence collaborator
(supabase insert) is modelled per its interface contract — insert a record
and return an assigned identifier — as an append-only table whose assigned
identifiers are the row positions.
-/

abbrev Str := List Char

def str (s : String) : Str := s.data

/-- Code points of Python's whitespace class (the set matched by the
regex class backslash-s on str patterns and stripped by str.strip()):
tab through carriage-return, the C1 file separators, space, NEL, NBSP
and the Unicode space separators. -/
def pyWsCodes : List Nat :=
  [9, 10, 11, 12, 13, 28, 29, 30, 31, 32, 133, 160, 5760,
   8192, 8193, 8194, 8195, 8196, 8197, 8198, 8199, 8200, 8201, 8202,
   8232, 8233, 8239, 8287, 12288]

def isPyWs (c : Char) : Bool := pyWsCodes.contains c.toNat

/-- The zero-width space removed by normalize_line's str.replace call. -/
def ZWSP : Char := '​'

/-- The character class of dash variants in normalize_line's second
re.sub: en dash, em dash, hyphen-minus. -/
def isDash (c : Char) : Bool := c == '–' || c == '—' || c == '-'

/-- State-carrying scan modelling re.sub of one-or-more-whitespace with a
single space: each maximal whitespace run is emitted as one space.  The
boolean records whether the scan is inside a whitespace run. -/
def collapseAux : Bool → Str → Str
  | _, [] => []
  | inWs, c :: rest =>
    if isPyWs c then
      if inWs then collapseAux true rest else ' ' :: collapseAux true rest
    else c :: collapseAux false rest

def collapseWs (s : Str) : Str := collapseAux false s

/-- Drop trailing whitespace (the right half of str.strip()). -/
def stripEnd : Str → Str
  | [] => []
  | c :: rest =>
    let r := stripEnd rest
    if r.isEmpty && isPyWs c then [] else c :: r

/-- Python str.strip() with no argument: remove leading and trailing
whitespace. -/
def stripWs (s : Str) : Str := stripEnd (s.dropWhile isPyWs)

/-- normalize_line from general_notes_v3.py: drop zero-width spaces,
replace dash variants by a space, collapse whitespace runs to one space,
strip. -/
def normalize_line (s : Str) : Str :=
  stripWs (collapseWs ((s.filter (fun c => c != ZWSP)).map
    (fun c => if isDash c then ' ' else c)))

theorem collapseAux_cons (b : Bool) (c : Char) (rest : Str) :
    collapseAux b (c :: rest) =
      if isPyWs c then (if b then collapseAux true rest else ' ' :: collapseAux true rest)
      else c :: collapseAux false rest := rfl

theorem stripEnd_cons (c : Char) (rest : Str) :
    stripEnd (c :: rest) =
      if (stripEnd rest).isEmpty && isPyWs c then [] else c :: stripEnd rest := rfl

-- ### Characterisation of normalized text, for the idempotence claim

def headNotWs : Str → Prop
  | [] => True
  | c :: _ => isPyWs c = false

def lastNotWs (l : Str) : Prop := ∀ c, l.getLast? = some c → isPyWs c = false

def noAdjWs : Str → Prop
  | [] => True
  | c :: rest => (isPyWs c = true → headNotWs rest) ∧ noAdjWs rest

def allWsSpace (l : Str) : Prop := ∀ c ∈ l, isPyWs c = true → c = ' '

theorem mem_collapseAux {c : Char} : ∀ (b : Bool) (l : Str),
    c ∈ collapseAux b l → c = ' ' ∨ c ∈ l := by
  intro b l
  induction l generalizing b with
  | nil => intro h; simp [collapseAux] at h
  | cons d rest ih =>
    intro h
    rw [collapseAux_cons] at h
    cases hw : isPyWs d with
    | true =>
      rw [hw, if_pos rfl] at h
      cases b with
      | true =>
        rw [if_pos rfl] at h
        rcases ih true h with h1 | h1
        · exact Or.inl h1
        · exact Or.inr (List.mem_cons_of_mem _ h1)
      | false =>
        rw [if_neg (by simp)] at h
        rcases List.mem_cons.mp h with h1 | h1
        · exact Or.inl h1
        · rcases ih true h1 with h2 | h2
          · exact Or.inl h2
          · exact Or.inr (List.mem_cons_of_mem _ h2)
    | false =>
      rw [hw, if_neg (by simp)] at h
      rcases List.mem_cons.mp h with h1 | h1
      · exact Or.inr (by simp [h1])
      · rcases ih false h1 with h2 | h2
        · exact Or.inl h2
        · exact Or.inr (List.mem_cons_of_mem _ h2)

theorem allWsSpace_collapseAux : ∀ (b : Bool) (l : Str), allWsSpace (collapseAux b l) := by
  intro b l
  induction l generalizing b with
  | nil => intro c hc; simp [collapseAux] at hc
  | cons d rest ih =>
    intro c hc hw
    rw [collapseAux_cons] at hc
    cases hd : isPyWs d with
    | true =>
      rw [hd, if_pos rfl] at hc
      cases b with
      | true =>
        rw [if_pos rfl] at hc
        exact ih true c hc hw
      | false =>
        rw [if_neg (by simp)] at hc
        rcases List.mem_cons.mp hc with h1 | h1
        · exact h1
        · exact ih true c h1 hw
    | false =>
      rw [hd, if_neg (by simp)] at hc
      rcases List.mem_cons.mp hc with h1 | h1
      · subst h1; rw [hd] at hw; exact absurd hw (by simp)
      · exact ih false c h1 hw

theorem headNotWs_collapseAux_true : ∀ l : Str, headNotWs (collapseAux true l) := by
  intro l
  induction l with
  | nil => trivial
  | cons d rest ih =>
    rw [collapseAux_cons]
    cases hd : isPyWs d with
    | true =>
      rw [if_pos rfl, if_pos rfl]
      exact ih
    | false =>
      rw [if_neg (by simp)]
      exact hd

theorem noAdjWs_collapseAux : ∀ (b : Bool) (l : Str), noAdjWs (collapseAux b l) := by
  intro b l
  induction l generalizing b with
  | nil => trivial
  | cons d rest ih =>
    rw [collapseAux_cons]
    cases hd : isPyWs d with
    | true =>
      rw [if_pos rfl]
      cases b with
      | true => rw [if_pos rfl]; exact ih true
      | false =>
        rw [if_neg (by simp)]
        exact ⟨fun _ => headNotWs_collapseAux_true rest, ih true⟩
    | false =>
      rw [if_neg (by simp)]
      exact ⟨fun h => by rw [hd] at h; exact absurd h (by simp), ih false⟩

theorem collapseAux_true_eq_false (l : Str) (h : headNotWs l) :
    collapseAux true l = collapseAux false l := by
  cases l with
  | nil => rfl
  | cons c rest =>
    have hc : isPyWs c = false := h
    rw [collapseAux_cons, collapseAux_cons, hc, if_neg (by simp), if_neg (by simp)]

theorem collapseAux_false_id : ∀ l : Str, allWsSpace l → noAdjWs l → collapseAux false l = l := by
  intro l
  induction l with
  | nil => intro _ _; rfl
  | cons c rest ih =>
    intro hall hadj
    rcases hadj with ⟨hhd, hrest⟩
    have ihrest := ih (fun d hd => hall d (List.mem_cons_of_mem _ hd)) hrest
    rw [collapseAux_cons]
    cases hc : isPyWs c with
    | true =>
      have hcsp : c = ' ' := hall c (by simp) hc
      have hh : headNotWs rest := hhd hc
      rw [if_pos rfl, if_neg (by simp), collapseAux_true_eq_false rest hh, ihrest, hcsp]
    | false =>
      rw [if_neg (by simp), ihrest]

theorem mem_dropWhile {c : Char} {p : Char → Bool} :
    ∀ l : Str, c ∈ l.dropWhile p → c ∈ l := by
  intro l
  induction l with
  | nil => simp [List.dropWhile]
  | cons d rest ih =>
    intro h
    rw [List.dropWhile_cons] at h
    by_cases hd : p d = true
    · rw [if_pos hd] at h; exact List.mem_cons_of_mem _ (ih h)
    · rw [if_neg hd] at h; exact h

theorem headNotWs_dropWhile : ∀ l : Str, headNotWs (l.dropWhile isPyWs) := by
  intro l
  induction l with
  | nil => trivial
  | cons c rest ih =>
    rw [List.dropWhile_cons]
    cases hc : isPyWs c with
    | true => rw [if_pos rfl]; exact ih
    | false => rw [if_neg (by simp)]; exact hc

theorem noAdjWs_dropWhile : ∀ l : Str, noAdjWs l → noAdjWs (l.dropWhile isPyWs) := by
  intro l
  induction l with
  | nil => intro h; trivial
  | cons c rest ih =>
    intro h
    rw [List.dropWhile_cons]
    cases hc : isPyWs c with
    | true => rw [if_pos rfl]; exact ih h.2
    | false => rw [if_neg (by simp)]; exact h

theorem dropWhile_eq_self_of_head (l : Str) (h : headNotWs l) :
    l.dropWhile isPyWs = l := by
  cases l with
  | nil => rfl
  | cons c rest =>
    have hc : isPyWs c = false := h
    rw [List.dropWhile_cons, hc, if_neg (by simp)]

theorem mem_stripEnd {c : Char} : ∀ l : Str, c ∈ stripEnd l → c ∈ l := by
  intro l
  induction l with
  | nil => simp [stripEnd]
  | cons d rest ih =>
    intro h
    rw [stripEnd_cons] at h
    by_cases he : ((stripEnd rest).isEmpty && isPyWs d) = true
    · rw [if_pos he] at h; simp at h
    · rw [if_neg he] at h
      rcases List.mem_cons.mp h with h1 | h1
      · simp [h1]
      · exact List.mem_cons_of_mem _ (ih h1)

theorem headNotWs_stripEnd : ∀ l : Str, headNotWs l → headNotWs (stripEnd l) := by
  intro l
  cases l with
  | nil => intro h; trivial
  | cons c rest =>
    intro h
    have hc : isPyWs c = false := h
    rw [stripEnd_cons]
    by_cases he : ((stripEnd rest).isEmpty && isPyWs c) = true
    · rw [if_pos he]; trivial
    · rw [if_neg he]; exact hc

theorem noAdjWs_stripEnd : ∀ l : Str, noAdjWs l → noAdjWs (stripEnd l) := by
  intro l
  induction l with
  | nil => intro h; trivial
  | cons c rest ih =>
    intro h
    rw [stripEnd_cons]
    by_cases he : ((stripEnd rest).isEmpty && isPyWs c) = true
    · rw [if_pos he]; trivial
    · rw [if_neg he]
      exact ⟨fun hc => headNotWs_stripEnd rest (h.1 hc), ih h.2⟩

theorem lastNotWs_stripEnd : ∀ l : Str, lastNotWs (stripEnd l) := by
  intro l
  induction l with
  | nil => intro c hc; simp [stripEnd] at hc
  | cons d rest ih =>
    intro c hc
    rw [stripEnd_cons] at hc
    by_cases he : ((stripEnd rest).isEmpty && isPyWs d) = true
    · rw [if_pos he] at hc; simp at hc
    · rw [if_neg he] at hc
      cases hr : stripEnd rest with
      | nil =>
        rw [hr] at hc
        simp only [List.getLast?_singleton, Option.some.injEq] at hc
        subst hc
        rw [hr] at he
        simpa using he
      | cons e t =>
        rw [hr, List.getLast?_cons_cons] at hc
        exact ih c (by rw [hr]; exact hc)

theorem stripEnd_eq_self_of_last : ∀ l : Str, lastNotWs l → stripEnd l = l := by
  intro l
  induction l with
  | nil => intro _; rfl
  | cons c rest ih =>
    intro h
    cases rest with
    | nil =>
      have hc : isPyWs c = false := h c (by simp)
      rw [stripEnd_cons]
      simp [stripEnd, hc]
    | cons d t =>
      have hrest : lastNotWs (d :: t) := by
        intro e he
        exact h e (by rw [List.getLast?_cons_cons]; exact he)
      have hr := ih hrest
      rw [stripEnd_cons, hr]
      simp

def noDashZwsp (l : Str) : Prop := ∀ c ∈ l, isDash c = false ∧ c ≠ ZWSP

theorem noDashZwsp_prep (s : Str) :
    noDashZwsp ((s.filter (fun c => c != ZWSP)).map (fun c => if isDash c then ' ' else c)) := by
  intro c hc
  rcases List.mem_map.mp hc with ⟨a, ha, hfa⟩
  have hz : a ≠ ZWSP := by
    have := List.of_mem_filter ha
    simpa using this
  by_cases hd : isDash a = true
  · rw [if_pos hd] at hfa
    subst hfa
    exact ⟨by decide, by decide⟩
  · rw [if_neg hd] at hfa
    subst hfa
    exact ⟨by simpa using hd, hz⟩

theorem map_dash_eq_self (l : Str) (h : ∀ c ∈ l, isDash c = false) :
    l.map (fun c => if isDash c then ' ' else c) = l := by
  induction l with
  | nil => rfl
  | cons c rest ih =>
    simp only [List.map_cons]
    rw [if_neg (by simp [h c (by simp)])]
    rw [ih (fun d hd => h d (List.mem_cons_of_mem _ hd))]

theorem filter_zwsp_eq_self (l : Str) (h : ∀ c ∈ l, c ≠ ZWSP) :
    l.filter (fun c => c != ZWSP) = l := by
  induction l with
  | nil => rfl
  | cons c rest ih =>
    rw [List.filter_cons]
    have hc : (c != ZWSP) = true := by simpa using h c (by simp)
    rw [if_pos hc]
    rw [ih (fun d hd => h d (List.mem_cons_of_mem _ hd))]

/-- C8: normalize_line is idempotent — normalizing an already-normalized
line returns it unchanged. -/
theorem claim_C8_normalize_idempotent (s : Str) :
    normalize_line (normalize_line s) = normalize_line s := by
  have hrepr : normalize_line s =
      stripEnd ((collapseAux false ((s.filter (fun c => c != ZWSP)).map
        (fun c => if isDash c then ' ' else c))).dropWhile isPyWs) := rfl
  set m := (s.filter (fun c => c != ZWSP)).map (fun c => if isDash c then ' ' else c) with hm
  have hcore : ∀ c ∈ normalize_line s, c ∈ collapseAux false m := by
    intro c hc
    rw [hrepr] at hc
    exact mem_dropWhile _ (mem_stripEnd _ hc)
  have hnd : noDashZwsp (normalize_line s) := by
    intro c hc
    rcases mem_collapseAux false m (hcore c hc) with h1 | h1
    · subst h1; exact ⟨by decide, by decide⟩
    · exact noDashZwsp_prep s c h1
  have hall : allWsSpace (normalize_line s) := by
    intro c hc hw
    exact allWsSpace_collapseAux false m c (hcore c hc) hw
  have hadj : noAdjWs (normalize_line s) := by
    rw [hrepr]
    exact noAdjWs_stripEnd _ (noAdjWs_dropWhile _ (noAdjWs_collapseAux false m))
  have hhd : headNotWs (normalize_line s) := by
    rw [hrepr]
    exact headNotWs_stripEnd _ (headNotWs_dropWhile _)
  have hlast : lastNotWs (normalize_line s) := by
    rw [hrepr]
    exact lastNotWs_stripEnd _
  conv_lhs => rw [normalize_line]
  rw [filter_zwsp_eq_self _ (fun c hc => (hnd c hc).2)]
  rw [map_dash_eq_self _ (fun c hc => (hnd c hc).1)]
  rw [show collapseWs (normalize_line s) = normalize_line s from
    collapseAux_false_id _ hall hadj]
  rw [stripWs, dropWhile_eq_self_of_head _ hhd, stripEnd_eq_self_of_last _ hlast]

-- ### Marker recognizer: LEVEL_PATTERN_TUPLES and the pattern loop

/-- Character class of the level-2 pattern ([ivxl] with re.I). -/
def romanChar (c : Char) : Bool :=
  c == 'i' || c == 'v' || c == 'x' || c == 'l' ||
  c == 'I' || c == 'V' || c == 'X' || c == 'L'

/-- Character class of the level-1 pattern ([a-z], case-sensitive). -/
def lowerAlpha (c : Char) : Bool := decide ('a' ≤ c ∧ c ≤ 'z')

/-- The level-2 pattern of LEVEL_PATTERN_TUPLES: anchored match of an
opening parenthesis, one or more characters of the roman class, a closing
parenthesis, then any trailing whitespace.  Returns the capture group and
the match end offset.  The greedy maximal class run is faithful: the class
does not contain the closing parenthesis, so shorter backtracked runs
cannot complete a match. -/
def matchRomanMarker (line : Str) : Option (Str × Nat) :=
  match line with
  | a :: rest =>
    if a == '(' then
      let grp := rest.takeWhile romanChar
      if grp.isEmpty then none
      else
        match rest.drop grp.length with
        | b :: after =>
          if b == ')' then
            some (grp, 1 + grp.length + 1 + (after.takeWhile isPyWs).length)
          else none
        | [] => none
    else none
  | [] => none

/-- The level-1 pattern: opening parenthesis, a single lowercase letter,
closing parenthesis, trailing whitespace. -/
def matchLetterMarker (line : Str) : Option (Str × Nat) :=
  match line with
  | a :: c :: b :: after =>
    if a == '(' && lowerAlpha c && b == ')' then
      some ([c], 3 + (after.takeWhile isPyWs).length)
    else none
  | _ => none

/-- The pattern loop of the processing section: try the tuples of
LEVEL_PATTERN_TUPLES in order (roman level 2 first, then letter level 1)
and stop at the first match, yielding (matched_level, matched_marker,
marker_span_end). -/
def matchNestedMarker (line : Str) : Option (Nat × Str × Nat) :=
  match matchRomanMarker line with
  | some (g, e) => some (2, g, e)
  | none =>
    match matchLetterMarker line with
    | some (g, e) => some (1, g, e)
    | none => none

-- ### Model of roman.fromRoman (third-party roman package)

/-- Greedy bounded repetition of one character (the X{0,3}-style atoms of
the roman validation pattern). -/
def matchRep (c : Char) : Nat → Str → Str
  | 0, s => s
  | _, [] => []
  | n+1, d :: rest => if d == c then matchRep c n rest else d :: rest

/-- Optional single character (the D?-style atoms). -/
def matchOptChar (c : Char) (s : Str) : Str :=
  match s with
  | d :: rest => if d == c then rest else s
  | [] => []

/-- One group of the roman package's validation pattern, of shape
(UT | UF | F? U{0,3}) for unit, five and ten letters u f t — e.g.
(CM | CD | D? C{0,3}).  Alternatives are tried in the pattern's order; in
an anchored full match, backtracking into a later alternative after one of
the two-letter alternatives succeeded cannot help (the remaining suffix
would start with a letter no later group matches), so the first-match scan
is faithful. -/
def matchRomanGroup (u f t : Char) (s : Str) : Str :=
  if [u, t].isPrefixOf s then s.drop 2
  else if [u, f].isPrefixOf s then s.drop 2
  else matchRep u 3 (matchOptChar f s)

/-- The strict validation pattern of the roman package:
M{0,4} (CM|CD|D?C{0,3}) (XC|XL|L?X{0,3}) (IX|IV|V?I{0,3}), anchored. -/
def romanPatternAccepts (s : Str) : Bool :=
  (matchRomanGroup 'I' 'V' 'X'
    (matchRomanGroup 'X' 'L' 'C'
      (matchRomanGroup 'C' 'D' 'M'
        (matchRep 'M' 4 s)))).isEmpty

def romanNumeralMap : List (Str × Nat) :=
  [(['M'], 1000), (['C','M'], 900), (['D'], 500), (['C','D'], 400),
   (['C'], 100), (['X','C'], 90), (['L'], 50), (['X','L'], 40),
   (['X'], 10), (['I','X'], 9), (['V'], 5), (['I','V'], 4), (['I'], 1)]

/-- Consume as many copies of one numeral as fit at the front of s (the
inner while loop of roman.fromRoman), fuel-bounded. -/
def consumeAll (numeral : Str) (value : Nat) : Nat → Str → Nat × Str
  | 0, s => (0, s)
  | fuel+1, s =>
    if numeral ≠ [] ∧ numeral.isPrefixOf s then
      let r := consumeAll numeral value fuel (s.drop numeral.length)
      (r.1 + value, r.2)
    else (0, s)

def greedyRomanValue : List (Str × Nat) → Str → Nat
  | [], _ => 0
  | (numeral, value) :: rest, s =>
    let r := consumeAll numeral value (s.length + 1) s
    r.1 + greedyRomanValue rest r.2

/-- roman.fromRoman: fails (here: none) on the empty string or a string
failing the strict pattern; otherwise the value is the greedy
left-to-right scan over romanNumeralMap. -/
def fromRoman? (s : Str) : Option Nat :=
  if s = [] then none
  else if romanPatternAccepts s then some (greedyRomanValue romanNumeralMap s)
  else none

def upperStr (s : Str) : Str := s.map Char.toUpper

def lowerStr (s : Str) : Str := s.map Char.toLower

/-- roman_value from general_notes_v3.py: None for the empty string or an
invalid numeral, otherwise fromRoman of the uppercased string. -/
def roman_value (s : Str) : Option Nat :=
  if s = [] then none else fromRoman? (upperStr s)

-- ### Succession validator and parent-index computation

/-- The backward scan of get_prev_sibling_marker, walking marker-stack
indices len-1 down to 1; the level entry for marker index i sits at
level-stack index i-1. -/
def gpsmAux (ms : List Str) (ls : List Nat) (cl : Nat) : Nat → Option Str
  | 0 => none
  | i+1 =>
    if i < ls.length ∧ ls.getD i 0 = cl then some (ms.getD (i+1) [])
    else gpsmAux ms ls cl i

/-- get_prev_sibling_marker from general_notes_v3.py. -/
def get_prev_sibling_marker (ms : List Str) (ls : List Nat) (cl : Nat) : Option Str :=
  gpsmAux ms ls cl (ms.length - 1)

/-- is_immediate_successor from general_notes_v3.py.  Markers are capture
groups of the nested patterns; at level 1 the group is always a single
character, and the model returns false on other shapes (where Python's ord
would raise a TypeError). -/
def is_immediate_successor (prev : Option Str) (next : Str) (level : Nat) : Bool :=
  match prev with
  | none =>
    if level = 1 then next == ['a']
    else if level = 2 then next == ['i']
    else false
  | some p =>
    if level = 1 then
      match p, next with
      | [a], [b] => b.toNat == a.toNat + 1
      | _, _ => false
    else if level = 2 then
      match roman_value p, roman_value next with
      | some pv, some nv => nv == pv + 1
      | _, _ => false
    else false

/-- Rightmost index of the list satisfying p (the backward scans of both
drafts' find_accept_parent_index). -/
def rightmostIdx (p : Nat → Bool) : List Nat → Option Nat
  | [] => none
  | x :: rest =>
    match rightmostIdx p rest with
    | some j => some (j + 1)
    | none => if p x then some 0 else none

/-- find_accept_parent_index from general_notes_v3.py (hardened draft).
The source function's marker_stack parameter is unused — the body reads
the module-global current_level_stack, which the embedding passes
explicitly.  Level 1 attaches to the root; level 2 attaches one past the
last level-1 entry, or to the root if none exists. -/
def find_accept_parent_index (level_stack : List Nat) (candidate_level : Nat) : Nat :=
  if candidate_level = 1 then 0
  else if candidate_level = 2 then
    match rightmostIdx (fun x => x == 1) level_stack with
    | some i => i + 1
    | none => 0
  else 0

/-- find_accept_parent_index from general_notes_v2.py (earlier draft):
one past the rightmost level-stack entry strictly below the candidate
level, or the root index 0 when none exists.  Like the v3 version, the
source body reads the module-global current_level_stack. -/
def find_accept_parent_index_v2 (level_stack : List Nat) (candidate_level : Nat) : Nat :=
  match rightmostIdx (fun x => decide (x < candidate_level)) level_stack with
  | some i => i + 1
  | none => 0


-- ### Claims C2, C3, C10

theorem rightmostIdx_congr (p q : Nat → Bool) : ∀ l : List Nat,
    (∀ x ∈ l, p x = q x) → rightmostIdx p l = rightmostIdx q l := by
  intro l
  induction l with
  | nil => intro _; rfl
  | cons x rest ih =>
    intro h
    simp only [rightmostIdx]
    rw [ih (fun y hy => h y (List.mem_cons_of_mem _ hy))]
    cases rightmostIdx q rest with
    | some j => rfl
    | none => rw [h x (by simp)]

theorem rightmostIdx_none_of_all_false (p : Nat → Bool) : ∀ l : List Nat,
    (∀ x ∈ l, p x = false) → rightmostIdx p l = none := by
  intro l
  induction l with
  | nil => intro _; rfl
  | cons x rest ih =>
    intro h
    simp only [rightmostIdx]
    rw [ih (fun y hy => h y (List.mem_cons_of_mem _ hy))]
    rw [h x (by simp)]
    simp

/-- C3: on level stacks drawn from the two configured nesting levels and
candidate levels drawn from those levels, the hardened draft's specialized
two-level parent-index function returns the same index as the earlier
draft's general backward scan — one past the rightmost entry strictly
below the candidate level, or the root index 0 when none exists. -/
theorem claim_C3_parent_index_equivalence (ls : List Nat) (cl : Nat)
    (hls : ∀ x ∈ ls, x = 1 ∨ x = 2) (hcl : cl = 1 ∨ cl = 2) :
    find_accept_parent_index ls cl = find_accept_parent_index_v2 ls cl := by
  rcases hcl with h | h
  · subst h
    rw [find_accept_parent_index, if_pos rfl, find_accept_parent_index_v2]
    rw [rightmostIdx_none_of_all_false _ ls ?side]
    case side =>
      intro x hx
      rcases hls x hx with h1 | h1 <;> simp [h1]
  · subst h
    rw [find_accept_parent_index, if_neg (by norm_num), if_pos rfl,
      find_accept_parent_index_v2]
    rw [rightmostIdx_congr (fun x => x == 1) (fun x => decide (x < 2)) ls ?side]
    case side =>
      intro x hx
      rcases hls x hx with h1 | h1 <;> simp [h1]

/-- Witness for C3 at a concrete level stack and candidate level. -/
theorem claim_C3_parent_index_equivalence_witness :
    find_accept_parent_index [1, 2] 2 = find_accept_parent_index_v2 [1, 2] 2 :=
  claim_C3_parent_index_equivalence [1, 2] 2 (by decide) (by decide)

/-- C2: the succession validator accepts, with no previous sibling at the
candidate's level, exactly the level's first symbol (a for letters, i for
romans) and rejects every other symbol; with a previous sibling it accepts
exactly the immediate successor (next character code for letters, roman
value plus one for romans) and rejects everything else. -/
theorem claim_C2_succession_validation :
    (∀ next : Str, is_immediate_successor none next 1 = true ↔ next = ['a']) ∧
    (∀ next : Str, is_immediate_successor none next 2 = true ↔ next = ['i']) ∧
    (∀ p b : Char, is_immediate_successor (some [p]) [b] 1 = true ↔
      b.toNat = p.toNat + 1) ∧
    (∀ (prev next : Str) (pv : Nat), roman_value prev = some pv →
      (is_immediate_successor (some prev) next 2 = true ↔
        roman_value next = some (pv + 1))) := by
  refine ⟨?first1, ?first2, ?letter, ?roman⟩
  case first1 =>
    intro next
    simp [is_immediate_successor]
  case first2 =>
    intro next
    simp [is_immediate_successor]
  case letter =>
    intro p b
    simp [is_immediate_successor]
  case roman =>
    intro prev next pv h
    simp only [is_immediate_successor]
    norm_num
    rw [h]
    cases hn : roman_value next with
    | some nv => simp
    | none => simp

/-- Witness for C2's roman successor clause at concrete markers. -/
theorem claim_C2_succession_validation_witness :
    roman_value ['i'] = some 1 ∧
    (is_immediate_successor (some ['i']) ['i', 'i'] 2 = true ↔
      roman_value ['i', 'i'] = some 2) :=
  ⟨by decide, claim_C2_succession_validation.2.2.2 ['i'] ['i', 'i'] 1 (by decide)⟩

theorem matchRomanMarker_single (m : Char) (after : Str) (hm : romanChar m = true) :
    matchRomanMarker ('(' :: m :: ')' :: after) =
      some ([m], 3 + (after.takeWhile isPyWs).length) := by
  simp only [matchRomanMarker, List.takeWhile_cons, hm,
    show romanChar ')' = false from by decide]
  norm_num

theorem matchLetterMarker_inv (line g : Str) (e : Nat)
    (h : matchLetterMarker line = some (g, e)) :
    ∃ c after, line = '(' :: c :: ')' :: after ∧ lowerAlpha c = true ∧ g = [c] := by
  rcases line with _ | ⟨a, _ | ⟨c, _ | ⟨b, after⟩⟩⟩
  · simp [matchLetterMarker] at h
  · simp [matchLetterMarker] at h
  · simp [matchLetterMarker] at h
  · simp only [matchLetterMarker] at h
    by_cases hcond : (a == '(' && lowerAlpha c && b == ')') = true
    · rw [if_pos hcond] at h
      have hg : g = [c] := by
        have := (Option.some.injEq _ _).mp h
        exact (Prod.mk.injEq _ _ _ _).mp this |>.1.symm
      simp only [Bool.and_eq_true, beq_iff_eq] at hcond
      exact ⟨c, after, by rw [hcond.1.1, hcond.2], hcond.1.2, hg⟩
    · rw [if_neg hcond] at h
      exact absurd h (by simp)

/-- C10: a normalized line beginning with a parenthesized single character
of the roman class {i v x l I V X L} is always classified by the pattern
loop as a level-2 roman candidate with that character as its symbol (the
roman pattern has priority and matches case-insensitively); consequently
the letter level never yields the symbols i, v, x or l. -/
theorem claim_C10_roman_pattern_priority :
    (∀ (line : Str) (c : Char), romanChar c = true → line.take 3 = ['(', c, ')'] →
      ∃ e, matchNestedMarker line = some (2, [c], e)) ∧
    (∀ (line mk : Str) (lvl : Nat) (e : Nat),
      matchNestedMarker line = some (lvl, mk, e) → lvl = 1 →
      mk ≠ ['i'] ∧ mk ≠ ['v'] ∧ mk ≠ ['x'] ∧ mk ≠ ['l']) := by
  constructor
  · intro line c hc htake
    have hline : line = '(' :: c :: ')' :: line.drop 3 := by
      conv_lhs => rw [← List.take_append_drop 3 line]
      rw [htake]
      rfl
    rw [hline, matchNestedMarker, matchRomanMarker_single c _ hc]
    exact ⟨_, rfl⟩
  · intro line mk lvl e h hlvl
    subst hlvl
    rw [matchNestedMarker] at h
    cases hr : matchRomanMarker line with
    | some ge =>
      rw [hr] at h
      rcases ge with ⟨g, e0⟩
      simp at h
    | none =>
      rw [hr] at h
      cases hl : matchLetterMarker line with
      | none => rw [hl] at h; exact absurd h (by simp)
      | some ge =>
        rw [hl] at h
        rcases ge with ⟨g, e0⟩
        have hmk : mk = g := by
          have := (Option.some.injEq _ _).mp h
          exact ((Prod.mk.injEq _ _ _ _).mp ((Prod.mk.injEq _ _ _ _).mp this).2).1.symm
        rcases matchLetterMarker_inv line g e0 hl with ⟨c, after, hline, _, hg⟩
        subst hline
        refine ⟨?i, ?v, ?x, ?l⟩
        case i =>
          intro hbad
          rw [hmk, hg] at hbad
          have hcc : c = 'i' := by simpa using hbad
          rw [hcc, matchRomanMarker_single 'i' after (by decide)] at hr
          exact absurd hr (by simp)
        case v =>
          intro hbad
          rw [hmk, hg] at hbad
          have hcc : c = 'v' := by simpa using hbad
          rw [hcc, matchRomanMarker_single 'v' after (by decide)] at hr
          exact absurd hr (by simp)
        case x =>
          intro hbad
          rw [hmk, hg] at hbad
          have hcc : c = 'x' := by simpa using hbad
          rw [hcc, matchRomanMarker_single 'x' after (by decide)] at hr
          exact absurd hr (by simp)
        case l =>
          intro hbad
          rw [hmk, hg] at hbad
          have hcc : c = 'l' := by simpa using hbad
          rw [hcc, matchRomanMarker_single 'l' after (by decide)] at hr
          exact absurd hr (by simp)

/-- Witness for C10 at a concrete line starting with a parenthesized
roman-class character. -/
theorem claim_C10_roman_pattern_priority_witness :
    ∃ e, matchNestedMarker (str ("(i) nested under b")) = some (2, ['i'], e) :=
  claim_C10_roman_pattern_priority.1 (str ("(i) nested under b")) 'i'
    (by decide) (by decide)

-- ### Skip-region configuration and page roles

def SKIP_RANGES : List (Nat × Nat) :=
  [(77, 188), (214, 296), (304, 381), (412, 475), (488, 568), (618, 679), (839, 898)]

inductive Role
  | START
  | MIDDLE
  | END
deriving DecidableEq, Repr

/-- page_role from general_notes_v3.py: the ranges are consulted in
order; a page equal to a start bound is START, equal to an end bound is
END, strictly inside is MIDDLE. -/
def page_role_aux : List (Nat × Nat) → Nat → Option Role
  | [], _ => none
  | r :: rest, p =>
    if p = r.1 then some Role.START
    else if p = r.2 then some Role.END
    else if r.1 < p ∧ p < r.2 then some Role.MIDDLE
    else page_role_aux rest p

def page_role (p : Nat) : Option Role := page_role_aux SKIP_RANGES p

def START_SKIP_LINE : Str := str ("Change in tariff classification rules")

def START_SKIP_LINE1 : Str := str ("Product-specific rules")

def HTS_BANNER : Str := str ("Harmonized Tariff Schedule of the United States")

def GENERAL_STATISTICAL_NOTES : Str := str ("GENERAL STATISTICAL NOTES")

def DOC_TYPE : Str := str ("General Note")

def isDigit (c : Char) : Bool := decide ('0' ≤ c ∧ c ≤ '9')

def isWordChar (c : Char) : Bool :=
  isDigit c || decide ('a' ≤ c ∧ c ≤ 'z') || decide ('A' ≤ c ∧ c ≤ 'Z') || c == '_'

def boundaryAfter : Str → Bool
  | [] => true
  | c :: _ => !(isWordChar c)

/-- is_resume_marker from general_notes_v3.py: the anchored
case-insensitive pattern Chapter, mandatory whitespace, 98 or 99, then a
word boundary. -/
def is_resume_marker (line : Str) : Bool :=
  if lowerStr (line.take 7) = str ("chapter") then
    let r := line.drop 7
    let w := r.takeWhile isPyWs
    if w.isEmpty then false
    else
      match r.drop w.length with
      | a :: b :: rest => a == '9' && (b == '8' || b == '9') && boundaryAfter rest
      | _ => false
  else false

/-- Python substring membership: needle occurs contiguously in hay. -/
def containsSub (needle hay : Str) : Bool :=
  (List.range (hay.length + 1)).any (fun i => needle.isPrefixOf (hay.drop i))

/-- is_ignored_editorial_line from general_notes_v3.py: case-insensitive
substring match against the two editorial phrases. -/
def is_ignored_editorial_line (line : Str) : Bool :=
  let l := lowerStr line
  containsSub (str ("subdivision deleted")) l ||
  containsSub (str ("were transferred and designated as subdivisions")) l

-- ### Root-heading lookup

/-- str.rstrip with a dot argument: drop trailing dot characters. -/
def rstripDots (s : Str) : Str := (s.reverse.dropWhile (fun c => c == '.')).reverse

/-- normalize_gn_number: strip trailing dots, then whitespace. -/
def normalize_gn_number (s : Str) : Str := stripWs (rstripDots s)

/-- Python dict assignment semantics for the header lookup: a later value
for an existing key overwrites in place, a new key is appended. -/
def insertDict (d : List (Str × Str)) (kv : Str × Str) : List (Str × Str) :=
  if d.any (fun e => e.1 == kv.1) then d.map (fun e => if e.1 == kv.1 then kv else e)
  else d ++ [kv]

/-- The dict comprehension building general_notes_headers from the rows
fetched from the general_note table: key is the normalized note number,
value is the stripped name.  Duplicate identifiers are not rejected — the
later row silently overwrites the earlier one. -/
def buildHeaders (rows : List (Str × Str)) : List (Str × Str) :=
  rows.foldl (fun d kv => insertDict d (normalize_gn_number kv.1, stripWs kv.2)) []

def dictFind (d : List (Str × Str)) (k : Str) : Option Str :=
  (d.find? (fun e => e.1 == k)).map Prod.snd

/-- The root-heading pattern: anchored digits, optional dot, mandatory
whitespace, remainder of the line.  The greedy digit run and the greedily
taken optional dot are faithful: backtracking them leaves a character the
mandatory-whitespace atom cannot match. -/
def matchGNHeading (line : Str) : Option (Str × Str) :=
  let ds := line.takeWhile isDigit
  if ds.isEmpty then none
  else
    let r1 := line.drop ds.length
    let r2 := match r1 with
      | '.' :: t => t
      | _ => r1
    let wsn := r2.takeWhile isPyWs
    if wsn.isEmpty then none else some (ds, r2.drop wsn.length)

-- ### Parser state, persisted rows, node flusher

structure Row where
  id : Nat
  page : Option Nat
  doc_type : Str
  ref_id : Option Str
  parent_id : Option Nat
  subtype : Option Str
  marker : Str
  text : Str
deriving DecidableEq, Repr

def rowDefault : Row :=
  { id := 0, page := none, doc_type := [], ref_id := none, parent_id := none,
    subtype := none, marker := [], text := [] }

/-- The module-level mutable state of the script, together with the
persistence table (db) and the trace of raw lines handed to the
normalizer (page number and raw line), recorded for the skip-suppression
claim. -/
structure St where
  resume_found : Bool
  current_level_stack : List Nat
  current_marker_stack : List Str
  current_id_stack : List (Option Nat)
  buffer : Str
  current_page : Option Nat
  prev_line : Option Str
  in_general_notes : Bool
  db : List Row
  trace : List (Nat × Str)
deriving DecidableEq, Repr

def initSt : St :=
  { resume_found := false, current_level_stack := [], current_marker_stack := [],
    current_id_stack := [], buffer := [], current_page := none, prev_line := none,
    in_general_notes := false, db := [], trace := [] }

def MAX_CHUNK_SIZE : Nat := 5000

/-- Fuel-driven chunk splitting used by chunkList. -/
def chunkListAux : Nat → Str → List Str
  | _, [] => []
  | 0, s => [s]
  | fuel + 1, s => s.take MAX_CHUNK_SIZE :: chunkListAux fuel (s.drop MAX_CHUNK_SIZE)

/-- The chunk texts taken at offsets 0, 5000, 10000, ... of the text to
insert (the while loop of flush_current_node).  The fuel is the text
length; the zero-fuel case is unreachable since every step on a nonempty
text consumes at least one character. -/
def chunkList (s : Str) : List Str := chunkListAux s.length s

/-- The rows inserted by the remaining-chunk loop of flush_current_node:
each carries parent main_id, and assigned identifiers are consecutive
table positions. -/
def chunkRows (page : Option Nat) (ref : Option Str) (subty : Option Str)
    (marker : Str) (main_id : Nat) : Nat → List Str → List Row
  | _, [] => []
  | nid, c :: rest =>
    { id := nid, page := page, doc_type := DOC_TYPE, ref_id := ref,
      parent_id := some main_id, subtype := subty, marker := marker,
      text := stripWs c } :: chunkRows page ref subty marker main_id (nid + 1) rest

/-- flush_current_node from general_notes_v3.py.  The supabase insert is
modelled as appending to db, the assigned identifier being the row's
position.  No-op when the marker stack is empty or the stripped buffer is
empty; otherwise: parent id is the second-from-top id-stack entry, the
first chunk is inserted with it and its assigned id becomes main_id,
remaining chunks carry parent main_id, and the top id-stack slot is
overwritten with main_id. -/
def flush_current_node (st : St) : St × Option Nat :=
  if st.current_marker_stack = [] then (st, none)
  else
    let text_to_insert := stripWs st.buffer
    if text_to_insert = [] then (st, none)
    else
      let parent_id : Option Nat :=
        if 2 ≤ st.current_id_stack.length then
          st.current_id_stack.getD (st.current_id_stack.length - 2) none
        else none
      let marker := List.intercalate ['-'] st.current_marker_stack
      let general_note_number := st.current_marker_stack.head?
      let ref := st.current_marker_stack.getLast?
      let chunks := chunkList text_to_insert
      let main_id := st.db.length
      let row0 : Row :=
        { id := main_id, page := st.current_page, doc_type := DOC_TYPE, ref_id := ref,
          parent_id := parent_id, subtype := general_note_number, marker := marker,
          text := stripWs (chunks.headD []) }
      let rest := chunkRows st.current_page ref general_note_number marker main_id
        (main_id + 1) chunks.tail
      let id_stack :=
        if st.current_id_stack = [] then st.current_id_stack
        else st.current_id_stack.set (st.current_id_stack.length - 1) (some main_id)
      ({ st with
          db := st.db ++ row0 :: rest
          current_id_stack := id_stack }, some main_id)

-- ### The processing loop

def gnRegexBranch (headers : List (Str × Str)) (normalized_line : Str) : Option Str :=
  match matchGNHeading normalized_line with
  | some g =>
    let gn_num := normalize_gn_number g.1
    match dictFind headers gn_num with
    | some title =>
      if (lowerStr (normalize_line title)).isPrefixOf (lowerStr g.2) then some gn_num
      else none
    | none => none
  | none => none

/-- The matched_gn computation of the processing loop: when the previous
line normalizes to a key of the header lookup, match the current line
against that header's title; otherwise try the digits-dot-title pattern
on the current line. -/
def computeMatchedGn (headers : List (Str × Str)) (prev_line : Option Str)
    (normalized_line : Str) : Option Str :=
  match prev_line with
  | some pl =>
    let pn := normalize_gn_number pl
    match dictFind headers pn with
    | some title =>
      if (lowerStr (normalize_line title)).isPrefixOf (lowerStr normalized_line) then some pn
      else none
    | none => gnRegexBranch headers normalized_line
  | none => gnRegexBranch headers normalized_line

/-- The accepted nested transition (lines 330 to 339): flush, compute the
parent index over the level stack, truncate the marker stack to
parent-index+1 entries, the level stack to parent-index entries and the
id stack to parent-index+1 entries, push the new marker, level and a null
id, and reset the buffer to the stripped remainder of the line after the
marker span. -/
def acceptNested (st : St) (lvl : Nat) (mk : Str) (spanEnd : Nat) (line : Str) : St :=
  let st1 := (flush_current_node st).1
  let pi := find_accept_parent_index st1.current_level_stack lvl
  { st1 with
    current_marker_stack := st1.current_marker_stack.take (pi + 1) ++ [mk]
    current_level_stack := st1.current_level_stack.take pi ++ [lvl]
    current_id_stack := st1.current_id_stack.take (pi + 1) ++ [none]
    buffer := if spanEnd < line.length then stripWs (line.drop spanEnd) else [] }

/-- The per-line body after the section-end, empty-line and skip gates
(lines 283 to 346): editorial filter, root-heading match (flush and reset
to a fresh root), nested-marker handling with succession validation, and
buffer growth for body text. -/
def mainLineBody (headers : List (Str × Str)) (page_num : Nat) (st : St)
    (line : Str) : St :=
  let normalized_line := normalize_line line
  if is_ignored_editorial_line line then { st with prev_line := some line }
  else
    match computeMatchedGn headers st.prev_line normalized_line with
    | some gn =>
      let st1 := if st.current_marker_stack ≠ [] then (flush_current_node st).1 else st
      { st1 with
        current_marker_stack := [gn]
        current_level_stack := []
        current_id_stack := [none]
        buffer := line
        current_page := some page_num
        in_general_notes := true
        prev_line := some line }
    | none =>
      if st.in_general_notes ∧ st.current_marker_stack ≠ [] then
        let st1 :=
          match matchNestedMarker line with
          | some m =>
            let prev := get_prev_sibling_marker st.current_marker_stack
              st.current_level_stack m.1
            if is_immediate_successor prev m.2.1 m.1 then
              acceptNested st m.1 m.2.1 m.2.2 line
            else { st with buffer := st.buffer ++ ' ' :: line }
          | none => { st with buffer := st.buffer ++ ' ' :: line }
        { st1 with
          current_page := some page_num
          prev_line := some line }
      else { st with prev_line := some line }

/-- One iteration of the per-line loop (lines 246 to 346).  The raw line
is recorded in the trace as reaching the normalizer, then normalized; the
section-end banner flushes and resets; empty lines clear prev_line; on a
START page the trigger phrases flush buffered content and discard the
rest of the page (second component true); on an END page lines are
discarded until the resume marker fires. -/
def processLine (headers : List (Str × Str)) (role : Option Role) (page_num : Nat)
    (st0 : St) (raw_line : Str) : St × Bool :=
  let st := { st0 with trace := st0.trace ++ [(page_num, raw_line)] }
  let line := normalize_line raw_line
  if upperStr line = GENERAL_STATISTICAL_NOTES then
    let st1 := if st.in_general_notes ∧ st.current_marker_stack ≠ [] then
        (flush_current_node st).1
      else st
    ({ st1 with
        in_general_notes := false
        current_marker_stack := []
        current_level_stack := []
        current_id_stack := []
        buffer := [] }, false)
  else if line = [] then ({ st with prev_line := none }, false)
  else if role = some Role.START ∧ (line = START_SKIP_LINE ∨ line = START_SKIP_LINE1) then
    let st1 := if st.in_general_notes ∧ st.current_marker_stack ≠ [] ∧ st.buffer ≠ [] then
        let st2 := (flush_current_node st).1
        { st2 with buffer := [] }
      else st
    (st1, true)
  else if role = some Role.END ∧ st.resume_found = false ∧ is_resume_marker line = false then
    (st, false)
  else
    let st1 := if role = some Role.END ∧ st.resume_found = false then
        { st with resume_found := true }
      else st
    (mainLineBody headers page_num st1 line, false)

def splitlinesAux (cur : Str) : Str → List Str
  | [] => [cur.reverse]
  | c :: t => if c = '\n' then cur.reverse :: splitlinesAux [] t else splitlinesAux (c :: cur) t

/-- Python str.splitlines restricted to the newline character: the empty
string yields no lines, and a trailing newline does not produce a final
empty line. -/
def splitlines (s : Str) : List Str :=
  if s = [] then []
  else
    let parts := splitlinesAux [] s
    if s.getLast? = some '\n' then parts.dropLast else parts

def processLines (headers : List (Str × Str)) (role : Option Role) (page_num : Nat) :
    St → List Str → St × Bool
  | st, [] => (st, false)
  | st, l :: rest =>
    let r := processLine headers role page_num st l
    if r.2 then r else processLines headers role page_num r.1 rest

/-- One text block (lines 233 to 246): skipped entirely if an earlier
block on the page triggered the partial skip; prev_line is cleared per
block; empty blocks and the running-banner block are passed over. -/
def processBlock (headers : List (Str × Str)) (role : Option Role) (page_num : Nat)
    (acc : St × Bool) (blockText : Str) : St × Bool :=
  if acc.2 then acc
  else if blockText = [] then ({ acc.1 with prev_line := none }, false)
  else
    let st := { acc.1 with prev_line := none }
    if HTS_BANNER.isPrefixOf blockText then (st, false)
    else processLines headers role page_num st (splitlines blockText)

/-- One page (lines 219 to 231): compute the role, reset the partial-skip
flag, and discard MIDDLE pages before any of their text is inspected. -/
def processPage (headers : List (Str × Str)) (st : St) (page_num : Nat)
    (blocks : List Str) : St :=
  let role := page_role page_num
  if role = some Role.MIDDLE then st
  else (blocks.foldl (processBlock headers role page_num) (st, false)).1

def processPages (headers : List (Str × Str)) : St → Nat → List (List Str) → St
  | st, _, [] => st
  | st, pn, b :: rest => processPages headers (processPage headers st pn b) (pn + 1) rest

/-- The whole driver: the pages doc[START_PAGE:] are processed in order
with 1-based page numbers, and the final buffered node is flushed at end
of document. -/
def processDoc (headers : List (Str × Str)) (startPage : Nat)
    (pages : List (List Str)) : St :=
  let st := processPages headers initSt (startPage + 1) pages
  if st.current_marker_stack ≠ [] then (flush_current_node st).1 else st

-- ### Claim C1: end-to-end scenario

def c1Headers : List (Str × Str) := buildHeaders [(str ("4"), str ("Rates of Duty"))]

def c1Block : Str :=
  str ("4. Rates of Duty\nsome intro text\n(a) first clause text\n(b) second clause text\n(i) nested under b\n(c) third clause text")

def c1Run : St := processDoc c1Headers 20 [[c1Block]]

/-- C1: the six-line scenario flushes exactly five Nodes with the expected
marker paths, texts and parent links, and node 4-c's parent_id is the id
assigned to node 4, not the id assigned to node 4-b. -/
theorem claim_C1_end_to_end :
    c1Run.db.map (fun r => (r.id, r.marker, r.text, r.parent_id)) =
      [(0, str ("4"), str ("4. Rates of Duty some intro text"), none),
       (1, str ("4-a"), str ("first clause text"), some 0),
       (2, str ("4-b"), str ("second clause text"), some 0),
       (3, str ("4-b-i"), str ("nested under b"), some 2),
       (4, str ("4-c"), str ("third clause text"), some 0)] ∧
    (c1Run.db.getD 4 rowDefault).parent_id = some (c1Run.db.getD 0 rowDefault).id ∧
    (c1Run.db.getD 4 rowDefault).parent_id ≠ some (c1Run.db.getD 2 rowDefault).id := by
  decide

-- ### Claim C7: skip suppression

theorem flush_trace (st : St) : (flush_current_node st).1.trace = st.trace := by
  simp only [flush_current_node]
  repeat' split
  all_goals rfl

theorem acceptNested_trace (st : St) (lvl : Nat) (mk : Str) (e : Nat) (line : Str) :
    (acceptNested st lvl mk e line).trace = st.trace := by
  unfold acceptNested
  rw [flush_trace]

theorem mainLineBody_trace (headers : List (Str × Str)) (pn : Nat) (st : St) (line : Str) :
    (mainLineBody headers pn st line).trace = st.trace := by
  unfold mainLineBody
  by_cases hed : is_ignored_editorial_line line = true
  · rw [if_pos hed]
  · rw [if_neg hed]
    cases hgn : computeMatchedGn headers st.prev_line (normalize_line line) with
    | some gn =>
      dsimp only
      by_cases hstk : st.current_marker_stack ≠ []
      · rw [if_pos hstk]
        exact flush_trace st
      · rw [if_neg hstk]
    | none =>
      by_cases hin : st.in_general_notes = true ∧ st.current_marker_stack ≠ []
      · rw [if_pos hin]
        dsimp only
        cases hm : matchNestedMarker line with
        | some m =>
          dsimp only
          by_cases hsucc : is_immediate_successor
              (get_prev_sibling_marker st.current_marker_stack st.current_level_stack m.1)
              m.2.1 m.1 = true
          · rw [if_pos hsucc]
            exact acceptNested_trace st m.1 m.2.1 m.2.2 line
          · rw [if_neg hsucc]
        | none => rfl
      · rw [if_neg hin]

theorem processLine_trace (headers : List (Str × Str)) (role : Option Role) (pn : Nat)
    (st : St) (raw : Str) :
    (processLine headers role pn st raw).1.trace = st.trace ++ [(pn, raw)] := by
  unfold processLine
  dsimp only
  by_cases h1 : upperStr (normalize_line raw) = GENERAL_STATISTICAL_NOTES
  · rw [if_pos h1]
    dsimp only
    by_cases h2 : st.in_general_notes = true ∧ st.current_marker_stack ≠ []
    · rw [if_pos h2, flush_trace]
    · rw [if_neg h2]
  · rw [if_neg h1]
    by_cases h2 : normalize_line raw = []
    · rw [if_pos h2]
    · rw [if_neg h2]
      by_cases h3 : role = some Role.START ∧
          (normalize_line raw = START_SKIP_LINE ∨ normalize_line raw = START_SKIP_LINE1)
      · rw [if_pos h3]
        dsimp only
        by_cases h4 : st.in_general_notes = true ∧ st.current_marker_stack ≠ [] ∧
            st.buffer ≠ []
        · rw [if_pos h4]
          dsimp only
          rw [flush_trace]
        · rw [if_neg h4]
      · rw [if_neg h3]
        by_cases h5 : role = some Role.END ∧ st.resume_found = false ∧
            is_resume_marker (normalize_line raw) = false
        · rw [if_pos h5]
        · rw [if_neg h5]
          dsimp only
          rw [mainLineBody_trace]
          by_cases h6 : role = some Role.END ∧ st.resume_found = false
          · rw [if_pos h6]
          · rw [if_neg h6]

theorem processLines_trace_mem (headers : List (Str × Str)) (role : Option Role)
    (pn : Nat) : ∀ (ls : List Str) (st : St),
    ∀ e ∈ (processLines headers role pn st ls).1.trace, e ∈ st.trace ∨ e.1 = pn := by
  intro ls
  induction ls with
  | nil => intro st e he; exact Or.inl he
  | cons l rest ih =>
    intro st e he
    rw [processLines] at he
    by_cases hr : (processLine headers role pn st l).2 = true
    · rw [if_pos hr] at he
      rw [processLine_trace] at he
      rcases List.mem_append.mp he with h1 | h1
      · exact Or.inl h1
      · right
        rw [List.mem_singleton.mp h1]
    · rw [if_neg hr] at he
      rcases ih _ e he with h1 | h1
      · rw [processLine_trace] at h1
        rcases List.mem_append.mp h1 with h2 | h2
        · exact Or.inl h2
        · right
          rw [List.mem_singleton.mp h2]
      · exact Or.inr h1

theorem processBlock_trace_mem (headers : List (Str × Str)) (role : Option Role)
    (pn : Nat) (acc : St × Bool) (blockText : Str) :
    ∀ e ∈ (processBlock headers role pn acc blockText).1.trace,
      e ∈ acc.1.trace ∨ e.1 = pn := by
  intro e he
  unfold processBlock at he
  by_cases h1 : acc.2 = true
  · rw [if_pos h1] at he
    exact Or.inl he
  · rw [if_neg h1] at he
    by_cases h2 : blockText = []
    · rw [if_pos h2] at he
      exact Or.inl he
    · rw [if_neg h2] at he
      by_cases h3 : HTS_BANNER.isPrefixOf blockText = true
      · rw [if_pos h3] at he
        exact Or.inl he
      · rw [if_neg h3] at he
        exact processLines_trace_mem headers role pn (splitlines blockText)
          { acc.1 with prev_line := none } e he

theorem foldBlocks_trace_mem (headers : List (Str × Str)) (role : Option Role)
    (pn : Nat) : ∀ (blocks : List Str) (acc : St × Bool),
    ∀ e ∈ (blocks.foldl (processBlock headers role pn) acc).1.trace,
      e ∈ acc.1.trace ∨ e.1 = pn := by
  intro blocks
  induction blocks with
  | nil => intro acc e he; exact Or.inl he
  | cons b rest ih =>
    intro acc e he
    rw [List.foldl_cons] at he
    rcases ih _ e he with h1 | h1
    · exact processBlock_trace_mem headers role pn acc b e h1
    · exact Or.inr h1

theorem processPage_trace_mem (headers : List (Str × Str)) (st : St) (pn : Nat)
    (blocks : List Str) :
    ∀ e ∈ (processPage headers st pn blocks).trace,
      e ∈ st.trace ∨ (e.1 = pn ∧ page_role pn ≠ some Role.MIDDLE) := by
  intro e he
  unfold processPage at he
  by_cases h1 : page_role pn = some Role.MIDDLE
  · rw [if_pos h1] at he
    exact Or.inl he
  · rw [if_neg h1] at he
    rcases foldBlocks_trace_mem headers _ pn blocks (st, false) e he with h2 | h2
    · exact Or.inl h2
    · exact Or.inr ⟨h2, h1⟩

theorem processPages_trace_mem (headers : List (Str × Str)) :
    ∀ (pages : List (List Str)) (st : St) (pn : Nat),
    ∀ e ∈ (processPages headers st pn pages).trace,
      e ∈ st.trace ∨ page_role e.1 ≠ some Role.MIDDLE := by
  intro pages
  induction pages with
  | nil => intro st pn e he; exact Or.inl he
  | cons b rest ih =>
    intro st pn e he
    rw [processPages] at he
    rcases ih _ _ e he with h1 | h1
    · rcases processPage_trace_mem headers st pn b e h1 with h2 | h2
      · exact Or.inl h2
      · right
        rw [h2.1]
        exact h2.2
    · exact Or.inr h1

theorem middle_one (p : Nat) (s e : Nat) (rest : List (Nat × Nat))
    (h1 : s < p) (h2 : p < e) :
    page_role_aux ((s, e) :: rest) p = some Role.MIDDLE := by
  rw [page_role_aux]
  rw [if_neg (by omega), if_neg (by omega), if_pos (by constructor <;> omega)]

theorem skip_one (p : Nat) (s e : Nat) (rest : List (Nat × Nat))
    (h1 : p ≠ s) (h2 : p ≠ e) (h3 : ¬(s < p ∧ p < e)) :
    page_role_aux ((s, e) :: rest) p = page_role_aux rest p := by
  rw [page_role_aux]
  rw [if_neg (by omega), if_neg (by omega), if_neg (by simpa using h3)]

theorem middle_of_ranges (p : Nat) (h : ∃ r ∈ SKIP_RANGES, r.1 < p ∧ p < r.2) :
    page_role p = some Role.MIDDLE := by
  rcases h with ⟨r, hr, h1, h2⟩
  simp only [SKIP_RANGES, List.mem_cons, List.not_mem_nil, or_false] at hr
  rw [page_role, SKIP_RANGES]
  rcases hr with rfl | rfl | rfl | rfl | rfl | rfl | rfl <;> simp only at h1 h2
  · exact middle_one p 77 188 _ h1 h2
  · rw [skip_one p 77 188 _ (by omega) (by omega) (by omega)]
    exact middle_one p 214 296 _ h1 h2
  · rw [skip_one p 77 188 _ (by omega) (by omega) (by omega),
      skip_one p 214 296 _ (by omega) (by omega) (by omega)]
    exact middle_one p 304 381 _ h1 h2
  · rw [skip_one p 77 188 _ (by omega) (by omega) (by omega),
      skip_one p 214 296 _ (by omega) (by omega) (by omega),
      skip_one p 304 381 _ (by omega) (by omega) (by omega)]
    exact middle_one p 412 475 _ h1 h2
  · rw [skip_one p 77 188 _ (by omega) (by omega) (by omega),
      skip_one p 214 296 _ (by omega) (by omega) (by omega),
      skip_one p 304 381 _ (by omega) (by omega) (by omega),
      skip_one p 412 475 _ (by omega) (by omega) (by omega)]
    exact middle_one p 488 568 _ h1 h2
  · rw [skip_one p 77 188 _ (by omega) (by omega) (by omega),
      skip_one p 214 296 _ (by omega) (by omega) (by omega),
      skip_one p 304 381 _ (by omega) (by omega) (by omega),
      skip_one p 412 475 _ (by omega) (by omega) (by omega),
      skip_one p 488 568 _ (by omega) (by omega) (by omega)]
    exact middle_one p 618 679 _ h1 h2
  · rw [skip_one p 77 188 _ (by omega) (by omega) (by omega),
      skip_one p 214 296 _ (by omega) (by omega) (by omega),
      skip_one p 304 381 _ (by omega) (by omega) (by omega),
      skip_one p 412 475 _ (by omega) (by omega) (by omega),
      skip_one p 488 568 _ (by omega) (by omega) (by omega),
      skip_one p 618 679 _ (by omega) (by omega) (by omega)]
    exact middle_one p 839 898 _ h1 h2

/-- C7: no line of a page lying strictly between the start and end bounds
of a configured SkipRegion (role MIDDLE) ever reaches the line
normalizer — the page is discarded before its text is inspected. -/
theorem claim_C7_skip_suppression (headers : List (Str × Str)) (startPage : Nat)
    (pages : List (List Str)) (p : Nat) (raw : Str)
    (hmid : ∃ r ∈ SKIP_RANGES, r.1 < p ∧ p < r.2) :
    (p, raw) ∉ (processDoc headers startPage pages).trace := by
  intro hmem
  have hrole : page_role p = some Role.MIDDLE := middle_of_ranges p hmid
  unfold processDoc at hmem
  dsimp only at hmem
  by_cases hfin :
      (processPages headers initSt (startPage + 1) pages).current_marker_stack ≠ []
  · rw [if_pos hfin, flush_trace] at hmem
    rcases processPages_trace_mem headers pages initSt (startPage + 1) _ hmem with h1 | h1
    · simp [initSt] at h1
    · exact h1 hrole
  · rw [if_neg hfin] at hmem
    rcases processPages_trace_mem headers pages initSt (startPage + 1) _ hmem with h1 | h1
    · simp [initSt] at h1
    · exact h1 hrole

/-- Witness for C7 at a concrete in-region page number. -/
theorem claim_C7_skip_suppression_witness :
    (∃ r ∈ SKIP_RANGES, r.1 < 100 ∧ 100 < r.2) ∧
    ((100 : Nat), str ("x")) ∉ (processDoc [] 20 []).trace :=
  ⟨by decide, claim_C7_skip_suppression [] 20 [] 100 (str ("x")) (by decide)⟩

-- ### Claim C5: monotonic parent depth

theorem flush_level (st : St) :
    (flush_current_node st).1.current_level_stack = st.current_level_stack := by
  simp only [flush_current_node]
  repeat' split
  all_goals rfl

def LevelInv (st : St) : Prop :=
  List.Chain' (· < ·) st.current_level_stack ∧
  ∀ x ∈ st.current_level_stack, x = 1 ∨ x = 2

theorem rightmostIdx_spec (p : Nat → Bool) : ∀ (l : List Nat) (i : Nat),
    rightmostIdx p l = some i → i < l.length ∧ p (l.getD i 0) = true := by
  intro l
  induction l with
  | nil => intro i h; simp [rightmostIdx] at h
  | cons x rest ih =>
    intro i h
    rw [rightmostIdx] at h
    cases hr : rightmostIdx p rest with
    | some j =>
      rw [hr] at h
      have hij : j + 1 = i := by simpa using h
      subst hij
      rcases ih j hr with ⟨hj1, hj2⟩
      refine ⟨by simpa using Nat.succ_lt_succ hj1, ?_⟩
      rw [List.getD_cons_succ]
      exact hj2
    | none =>
      rw [hr] at h
      by_cases hp : p x = true
      · rw [if_pos hp] at h
        have h0 : (0 : Nat) = i := by simpa using h
        subst h0
        exact ⟨by simp, by rw [List.getD_cons_zero]; exact hp⟩
      · rw [if_neg hp] at h
        simp at h

theorem getLast?_take_succ : ∀ (l : List Nat) (i : Nat), i < l.length →
    (l.take (i + 1)).getLast? = some (l.getD i 0) := by
  intro l
  induction l with
  | nil => intro i h; simp at h
  | cons x rest ih =>
    intro i h
    cases i with
    | zero => simp
    | succ j =>
      have hj : j < rest.length := by simpa using h
      rw [List.take_succ_cons, List.getD_cons_succ]
      cases htr : rest.take (j + 1) with
      | nil =>
        have hlen : (rest.take (j + 1)).length = min (j + 1) rest.length :=
          List.length_take _ _
        rw [htr] at hlen
        simp at hlen
        omega
      | cons y t =>
        rw [List.getLast?_cons_cons, ← htr]
        exact ih j hj

theorem matchNestedMarker_level (line : Str) (m : Nat × Str × Nat)
    (h : matchNestedMarker line = some m) : m.1 = 1 ∨ m.1 = 2 := by
  unfold matchNestedMarker at h
  cases h1 : matchRomanMarker line with
  | some g =>
    rcases g with ⟨gs, ge⟩
    rw [h1] at h
    dsimp only at h
    right
    rw [← Option.some.inj h]
  | none =>
    rw [h1] at h
    cases h2 : matchLetterMarker line with
    | some g =>
      rcases g with ⟨gs, ge⟩
      rw [h2] at h
      dsimp only at h
      left
      rw [← Option.some.inj h]
    | none =>
      rw [h2] at h
      exact absurd h (by simp)

theorem LevelOk_push (ls : List Nat) (lvl : Nat)
    (hchain : List.Chain' (· < ·) ls) (hmem : ∀ x ∈ ls, x = 1 ∨ x = 2)
    (hlvl : lvl = 1 ∨ lvl = 2) :
    List.Chain' (· < ·) (ls.take (find_accept_parent_index ls lvl) ++ [lvl]) ∧
    ∀ x ∈ ls.take (find_accept_parent_index ls lvl) ++ [lvl], x = 1 ∨ x = 2 := by
  constructor
  · rcases hlvl with h | h
    · subst h
      rw [find_accept_parent_index, if_pos rfl]
      simp
    · subst h
      rw [find_accept_parent_index, if_neg (by norm_num), if_pos rfl]
      cases hr : rightmostIdx (fun x => x == 1) ls with
      | none => simp
      | some i =>
        rcases rightmostIdx_spec _ ls i hr with ⟨hi, hpi⟩
        have hgd : ls.getD i 0 = 1 := by simpa using hpi
        rw [List.chain'_append]
        refine ⟨List.Chain'.take hchain _, List.chain'_singleton _, ?_⟩
        intro x hx y hy
        rw [getLast?_take_succ ls i hi] at hx
        simp only [Option.mem_def, Option.some.injEq] at hx
        simp only [List.head?_cons, Option.mem_def, Option.some.injEq] at hy
        subst hx
        subst hy
        omega
  · intro x hx
    rcases List.mem_append.mp hx with h1 | h1
    · exact hmem x (List.take_subset _ _ h1)
    · have hx2 : x = lvl := List.mem_singleton.mp h1
      subst hx2
      exact hlvl

theorem acceptNested_level (st : St) (lvl : Nat) (mk : Str) (e : Nat) (line : Str) :
    (acceptNested st lvl mk e line).current_level_stack =
      st.current_level_stack.take
        (find_accept_parent_index st.current_level_stack lvl) ++ [lvl] := by
  unfold acceptNested
  dsimp only
  rw [flush_level]

theorem LevelInv_flush (st : St) (h : LevelInv st) : LevelInv (flush_current_node st).1 := by
  constructor
  · rw [flush_level]
    exact h.1
  · rw [flush_level]
    exact h.2

theorem LevelInv_acceptNested (st : St) (lvl : Nat) (mk : Str) (e : Nat) (line : Str)
    (h : LevelInv st) (hlvl : lvl = 1 ∨ lvl = 2) :
    LevelInv (acceptNested st lvl mk e line) := by
  have hc := LevelOk_push st.current_level_stack lvl h.1 h.2 hlvl
  constructor
  · rw [acceptNested_level]
    exact hc.1
  · rw [acceptNested_level]
    exact hc.2

theorem LevelInv_mainLineBody (headers : List (Str × Str)) (pn : Nat) (st : St)
    (line : Str) (h : LevelInv st) : LevelInv (mainLineBody headers pn st line) := by
  unfold mainLineBody
  by_cases hed : is_ignored_editorial_line line = true
  · rw [if_pos hed]
    exact ⟨h.1, h.2⟩
  · rw [if_neg hed]
    cases hgn : computeMatchedGn headers st.prev_line (normalize_line line) with
    | some gn => exact ⟨by simp, by simp⟩
    | none =>
      by_cases hin : st.in_general_notes = true ∧ st.current_marker_stack ≠ []
      · rw [if_pos hin]
        dsimp only
        cases hm : matchNestedMarker line with
        | some m =>
          dsimp only
          by_cases hsucc : is_immediate_successor
              (get_prev_sibling_marker st.current_marker_stack st.current_level_stack m.1)
              m.2.1 m.1 = true
          · rw [if_pos hsucc]
            exact LevelInv_acceptNested st m.1 m.2.1 m.2.2 line h
              (matchNestedMarker_level line m hm)
          · rw [if_neg hsucc]
            exact ⟨h.1, h.2⟩
        | none => exact ⟨h.1, h.2⟩
      · rw [if_neg hin]
        exact ⟨h.1, h.2⟩

theorem LevelInv_processLine (headers : List (Str × Str)) (role : Option Role)
    (pn : Nat) (st : St) (raw : Str) (h : LevelInv st) :
    LevelInv (processLine headers role pn st raw).1 := by
  unfold processLine
  dsimp only
  by_cases h1 : upperStr (normalize_line raw) = GENERAL_STATISTICAL_NOTES
  · rw [if_pos h1]
    exact ⟨by simp, by simp⟩
  · rw [if_neg h1]
    by_cases h2 : normalize_line raw = []
    · rw [if_pos h2]
      exact ⟨h.1, h.2⟩
    · rw [if_neg h2]
      by_cases h3 : role = some Role.START ∧
          (normalize_line raw = START_SKIP_LINE ∨ normalize_line raw = START_SKIP_LINE1)
      · rw [if_pos h3]
        dsimp only
        by_cases h4 : st.in_general_notes = true ∧ st.current_marker_stack ≠ [] ∧
            st.buffer ≠ []
        · rw [if_pos h4]
          have := LevelInv_flush { st with trace := st.trace ++ [(pn, raw)] } ⟨h.1, h.2⟩
          exact ⟨this.1, this.2⟩
        · rw [if_neg h4]
          exact ⟨h.1, h.2⟩
      · rw [if_neg h3]
        by_cases h5 : role = some Role.END ∧ st.resume_found = false ∧
            is_resume_marker (normalize_line raw) = false
        · rw [if_pos h5]
          exact ⟨h.1, h.2⟩
        · rw [if_neg h5]
          dsimp only
          by_cases h6 : role = some Role.END ∧ st.resume_found = false
          · rw [if_pos h6]
            exact LevelInv_mainLineBody headers pn _ _ ⟨h.1, h.2⟩
          · rw [if_neg h6]
            exact LevelInv_mainLineBody headers pn _ _ ⟨h.1, h.2⟩

/-- States of the stack machine reachable by any sequence of transitions:
the initial state, a per-line step with any header lookup, page role and
page number, the per-block prev_line reset, and a bare flush (the
end-of-document flush). -/
inductive Reach : St → Prop
  | init : Reach initSt
  | step (st : St) (headers : List (Str × Str)) (role : Option Role) (pn : Nat)
      (raw : Str) : Reach st → Reach (processLine headers role pn st raw).1
  | blockReset (st : St) : Reach st → Reach { st with prev_line := none }
  | flushStep (st : St) : Reach st → Reach (flush_current_node st).1

theorem Reach_LevelInv : ∀ st, Reach st → LevelInv st := by
  intro st h
  induction h with
  | init => exact ⟨by simp [initSt], by simp [initSt]⟩
  | step st headers role pn raw _ ih => exact LevelInv_processLine headers role pn st raw ih
  | blockReset st _ ih => exact ⟨ih.1, ih.2⟩
  | flushStep st _ ih => exact LevelInv_flush st ih

/-- C5: in every state of the stack machine reachable by any sequence of
accepted transitions (root-heading resets and validated nested markers,
together with the other line events), the level stack read
bottom-to-top is strictly increasing. -/
theorem claim_C5_monotonic_parent_depth (st : St) (h : Reach st) :
    List.Chain' (· < ·) st.current_level_stack :=
  (Reach_LevelInv st h).1

/-- Witness for C5 at a concrete reachable state obtained by one accepted
root transition followed by one accepted nested transition. -/
theorem claim_C5_monotonic_parent_depth_witness :
    List.Chain' (· < ·)
      ((processLine c1Headers none 22
        (processLine c1Headers none 22
          (processLine c1Headers none 22 initSt (str ("4. Rates of Duty"))).1
          (str ("(a) first clause text"))).1
        (str ("(i) deeper"))).1).current_level_stack :=
  claim_C5_monotonic_parent_depth _
    (Reach.step _ c1Headers none 22 (str ("(i) deeper"))
      (Reach.step _ c1Headers none 22 (str ("(a) first clause text"))
        (Reach.step _ c1Headers none 22 (str ("4. Rates of Duty")) Reach.init)))

-- ### Claim C6: parent linkage

/-- Rows of the persistence table starting at position n: each row's
assigned identifier is its position, and each parent_id is either null or
a strictly earlier position — the identifier of a previously inserted
row. -/
def RowsOk : Nat → List Row → Prop
  | _, [] => True
  | n, r :: rest =>
    r.id = n ∧ (r.parent_id = none ∨ ∃ j, r.parent_id = some j ∧ j < n) ∧
    RowsOk (n + 1) rest

def IdsInv (st : St) : Prop :=
  (∀ o ∈ st.current_id_stack, ∀ j, o = some j → j < st.db.length) ∧ RowsOk 0 st.db

theorem mem_set_cases {α : Type} {a b : α} : ∀ (l : List α) (n : Nat),
    a ∈ l.set n b → a ∈ l ∨ a = b := by
  intro l
  induction l with
  | nil => intro n h; simp at h
  | cons x rest ih =>
    intro n h
    cases n with
    | zero =>
      rw [List.set_cons_zero] at h
      rcases List.mem_cons.mp h with h1 | h1
      · exact Or.inr h1
      · exact Or.inl (List.mem_cons_of_mem _ h1)
    | succ m =>
      rw [List.set_cons_succ] at h
      rcases List.mem_cons.mp h with h1 | h1
      · exact Or.inl (by simp [h1])
      · rcases ih m h1 with h2 | h2
        · exact Or.inl (List.mem_cons_of_mem _ h2)
        · exact Or.inr h2

theorem getD_mem_of_lt {l : List (Option Nat)} {i : Nat} (h : i < l.length) :
    l.getD i none ∈ l := by
  rw [List.getD_eq_getElem _ _ h]
  exact List.getElem_mem h

theorem RowsOk_append : ∀ (l1 : List Row) (n : Nat) (l2 : List Row),
    RowsOk n l1 → RowsOk (n + l1.length) l2 → RowsOk n (l1 ++ l2) := by
  intro l1
  induction l1 with
  | nil => intro n l2 _ h2; simpa using h2
  | cons r rest ih =>
    intro n l2 h1 h2
    refine ⟨h1.1, h1.2.1, ?_⟩
    have heq : n + (r :: rest).length = n + 1 + rest.length := by
      rw [List.length_cons]
      omega
    rw [heq] at h2
    exact ih (n + 1) l2 h1.2.2 h2

theorem RowsOk_chunkRows (page : Option Nat) (ref : Option Str) (subty : Option Str)
    (marker : Str) (main_id : Nat) : ∀ (cs : List Str) (nid : Nat), main_id < nid →
    RowsOk nid (chunkRows page ref subty marker main_id nid cs) := by
  intro cs
  induction cs with
  | nil => intro nid _; trivial
  | cons c rest ih =>
    intro nid hlt
    exact ⟨rfl, Or.inr ⟨main_id, rfl, hlt⟩, ih (nid + 1) (by omega)⟩

theorem chunkRows_length (page : Option Nat) (ref : Option Str) (subty : Option Str)
    (marker : Str) (main_id : Nat) : ∀ (cs : List Str) (nid : Nat),
    (chunkRows page ref subty marker main_id nid cs).length = cs.length := by
  intro cs
  induction cs with
  | nil => intro nid; rfl
  | cons c rest ih =>
    intro nid
    simp only [chunkRows, List.length_cons, ih (nid + 1)]

theorem IdsInv_flush (st : St) (h : IdsInv st) : IdsInv (flush_current_node st).1 := by
  unfold flush_current_node
  by_cases h1 : st.current_marker_stack = []
  · rw [if_pos h1]
    exact h
  · rw [if_neg h1]
    dsimp only
    by_cases h2 : stripWs st.buffer = []
    · rw [if_pos h2]
      exact h
    · rw [if_neg h2]
      dsimp only
      constructor
      · intro o ho j hoj
        by_cases h3 : st.current_id_stack = []
        · rw [if_pos h3, h3] at ho
          simp at ho
        · rw [if_neg h3] at ho
          rw [List.length_append, List.length_cons]
          rcases mem_set_cases _ _ ho with h4 | h4
          · have := h.1 o h4 j hoj
            omega
          · rw [h4] at hoj
            have : st.db.length = j := by simpa using hoj
            omega
      · refine RowsOk_append st.db 0 _ h.2 ?_
        rw [Nat.zero_add]
        refine ⟨rfl, ?_, ?_⟩
        · by_cases h3 : 2 ≤ st.current_id_stack.length
          · rw [if_pos h3]
            cases ho : st.current_id_stack.getD (st.current_id_stack.length - 2) none with
            | none => exact Or.inl rfl
            | some j =>
              refine Or.inr ⟨j, rfl, ?_⟩
              have hmem := getD_mem_of_lt
                (show st.current_id_stack.length - 2 < st.current_id_stack.length by omega)
              rw [ho] at hmem
              exact h.1 (some j) hmem j rfl
          · rw [if_neg h3]
            exact Or.inl rfl
        · exact RowsOk_chunkRows st.current_page st.current_marker_stack.getLast?
            st.current_marker_stack.head? (List.intercalate ['-'] st.current_marker_stack)
            st.db.length (chunkList (stripWs st.buffer)).tail (st.db.length + 1) (by omega)

theorem IdsInv_acceptNested (st : St) (lvl : Nat) (mk : Str) (e : Nat) (line : Str)
    (h : IdsInv st) : IdsInv (acceptNested st lvl mk e line) := by
  have h1 := IdsInv_flush st h
  unfold acceptNested
  dsimp only
  constructor
  · intro o ho j hoj
    rcases List.mem_append.mp ho with h2 | h2
    · exact h1.1 o (List.take_subset _ _ h2) j hoj
    · rw [List.mem_singleton.mp h2] at hoj
      exact absurd hoj (by simp)
  · exact h1.2

theorem IdsInv_mainLineBody (headers : List (Str × Str)) (pn : Nat) (st : St)
    (line : Str) (h : IdsInv st) : IdsInv (mainLineBody headers pn st line) := by
  unfold mainLineBody
  by_cases hed : is_ignored_editorial_line line = true
  · rw [if_pos hed]
    exact ⟨h.1, h.2⟩
  · rw [if_neg hed]
    cases hgn : computeMatchedGn headers st.prev_line (normalize_line line) with
    | some gn =>
      dsimp only
      by_cases hstk : st.current_marker_stack ≠ []
      · rw [if_pos hstk]
        have h1 := IdsInv_flush st h
        constructor
        · intro o ho j hoj
          rw [List.mem_singleton.mp ho] at hoj
          exact absurd hoj (by simp)
        · exact h1.2
      · rw [if_neg hstk]
        constructor
        · intro o ho j hoj
          rw [List.mem_singleton.mp ho] at hoj
          exact absurd hoj (by simp)
        · exact h.2
    | none =>
      by_cases hin : st.in_general_notes = true ∧ st.current_marker_stack ≠ []
      · rw [if_pos hin]
        dsimp only
        cases hm : matchNestedMarker line with
        | some m =>
          dsimp only
          by_cases hsucc : is_immediate_successor
              (get_prev_sibling_marker st.current_marker_stack st.current_level_stack m.1)
              m.2.1 m.1 = true
          · rw [if_pos hsucc]
            exact IdsInv_acceptNested st m.1 m.2.1 m.2.2 line h
          · rw [if_neg hsucc]
            exact ⟨h.1, h.2⟩
        | none => exact ⟨h.1, h.2⟩
      · rw [if_neg hin]
        exact ⟨h.1, h.2⟩

theorem IdsInv_processLine (headers : List (Str × Str)) (role : Option Role)
    (pn : Nat) (st : St) (raw : Str) (h : IdsInv st) :
    IdsInv (processLine headers role pn st raw).1 := by
  unfold processLine
  dsimp only
  by_cases h1 : upperStr (normalize_line raw) = GENERAL_STATISTICAL_NOTES
  · rw [if_pos h1]
    by_cases h2 : st.in_general_notes = true ∧ st.current_marker_stack ≠ []
    · rw [if_pos h2]
      have h3 := IdsInv_flush { st with trace := st.trace ++ [(pn, raw)] } ⟨h.1, h.2⟩
      exact ⟨by intro o ho j hoj; simp at ho, h3.2⟩
    · rw [if_neg h2]
      exact ⟨by intro o ho j hoj; simp at ho, h.2⟩
  · rw [if_neg h1]
    by_cases h2 : normalize_line raw = []
    · rw [if_pos h2]
      exact ⟨h.1, h.2⟩
    · rw [if_neg h2]
      by_cases h3 : role = some Role.START ∧
          (normalize_line raw = START_SKIP_LINE ∨ normalize_line raw = START_SKIP_LINE1)
      · rw [if_pos h3]
        dsimp only
        by_cases h4 : st.in_general_notes = true ∧ st.current_marker_stack ≠ [] ∧
            st.buffer ≠ []
        · rw [if_pos h4]
          have h5 := IdsInv_flush { st with trace := st.trace ++ [(pn, raw)] } ⟨h.1, h.2⟩
          exact ⟨h5.1, h5.2⟩
        · rw [if_neg h4]
          exact ⟨h.1, h.2⟩
      · rw [if_neg h3]
        by_cases h5 : role = some Role.END ∧ st.resume_found = false ∧
            is_resume_marker (normalize_line raw) = false
        · rw [if_pos h5]
          exact ⟨h.1, h.2⟩
        · rw [if_neg h5]
          dsimp only
          by_cases h6 : role = some Role.END ∧ st.resume_found = false
          · rw [if_pos h6]
            exact IdsInv_mainLineBody headers pn _ _ ⟨h.1, h.2⟩
          · rw [if_neg h6]
            exact IdsInv_mainLineBody headers pn _ _ ⟨h.1, h.2⟩

theorem IdsInv_processLines (headers : List (Str × Str)) (role : Option Role)
    (pn : Nat) : ∀ (ls : List Str) (st : St), IdsInv st →
    IdsInv (processLines headers role pn st ls).1 := by
  intro ls
  induction ls with
  | nil => intro st h; exact h
  | cons l rest ih =>
    intro st h
    rw [processLines]
    by_cases hr : (processLine headers role pn st l).2 = true
    · rw [if_pos hr]
      exact IdsInv_processLine headers role pn st l h
    · rw [if_neg hr]
      exact ih _ (IdsInv_processLine headers role pn st l h)

theorem IdsInv_processBlock (headers : List (Str × Str)) (role : Option Role)
    (pn : Nat) (acc : St × Bool) (blockText : Str) (h : IdsInv acc.1) :
    IdsInv (processBlock headers role pn acc blockText).1 := by
  unfold processBlock
  by_cases h1 : acc.2 = true
  · rw [if_pos h1]
    exact h
  · rw [if_neg h1]
    by_cases h2 : blockText = []
    · rw [if_pos h2]
      exact ⟨h.1, h.2⟩
    · rw [if_neg h2]
      by_cases h3 : HTS_BANNER.isPrefixOf blockText = true
      · rw [if_pos h3]
        exact ⟨h.1, h.2⟩
      · rw [if_neg h3]
        exact IdsInv_processLines headers role pn (splitlines blockText)
          { acc.1 with prev_line := none } ⟨h.1, h.2⟩

theorem IdsInv_foldBlocks (headers : List (Str × Str)) (role : Option Role)
    (pn : Nat) : ∀ (blocks : List Str) (acc : St × Bool), IdsInv acc.1 →
    IdsInv (blocks.foldl (processBlock headers role pn) acc).1 := by
  intro blocks
  induction blocks with
  | nil => intro acc h; exact h
  | cons b rest ih =>
    intro acc h
    rw [List.foldl_cons]
    exact ih _ (IdsInv_processBlock headers role pn acc b h)

theorem IdsInv_processPage (headers : List (Str × Str)) (st : St) (pn : Nat)
    (blocks : List Str) (h : IdsInv st) : IdsInv (processPage headers st pn blocks) := by
  unfold processPage
  by_cases h1 : page_role pn = some Role.MIDDLE
  · rw [if_pos h1]
    exact h
  · rw [if_neg h1]
    exact IdsInv_foldBlocks headers _ pn blocks (st, false) h

theorem IdsInv_processPages (headers : List (Str × Str)) :
    ∀ (pages : List (List Str)) (st : St) (pn : Nat), IdsInv st →
    IdsInv (processPages headers st pn pages) := by
  intro pages
  induction pages with
  | nil => intro st pn h; exact h
  | cons b rest ih =>
    intro st pn h
    rw [processPages]
    exact ih _ _ (IdsInv_processPage headers st pn b h)

/-- C6 (amended): in every run, every flushed Node's parent_id is either
null or equals the identifier assigned by the persistence collaborator to
some Node flushed earlier in the same run (identifiers being the table
positions, a parent_id equal to a strictly earlier position). -/
theorem claim_C6_parent_linkage (headers : List (Str × Str)) (startPage : Nat)
    (pages : List (List Str)) :
    RowsOk 0 (processDoc headers startPage pages).db := by
  have hinit : IdsInv initSt := ⟨by intro o ho j hoj; simp [initSt] at ho, by trivial⟩
  have hpages := IdsInv_processPages headers pages initSt (startPage + 1) hinit
  unfold processDoc
  dsimp only
  by_cases hfin :
      (processPages headers initSt (startPage + 1) pages).current_marker_stack ≠ []
  · rw [if_pos hfin]
    exact (IdsInv_flush _ hpages).2
  · rw [if_neg hfin]
    exact hpages.2

def c6Run : St := processDoc c1Headers 20 [[str ("4. Rates of Duty\n(a)\n(i) something")]]

/-- C6 counterexample: in the run on the lines 4. Rates of Duty / (a) /
(i) something, the node with marker path 4-a-i — a nested node, its
marker differing from its root subtype — is flushed with parent_id null,
refuting the reservation of null parents for root general-note nodes. -/
theorem claim_C6_counterexample :
    c6Run.db.map (fun r => (r.marker, r.parent_id)) =
      [(str ("4"), none), (str ("4-a-i"), none)] ∧
    (c6Run.db.getD 1 rowDefault).marker ≠
      ((c6Run.db.getD 1 rowDefault).subtype.getD []) := by
  decide

-- ### Claim C4: chunk round trip

theorem chunkListAux_succ_cons (fuel : Nat) (c : Char) (cs : Str) :
    chunkListAux (fuel + 1) (c :: cs) =
      (c :: cs).take MAX_CHUNK_SIZE :: chunkListAux fuel ((c :: cs).drop MAX_CHUNK_SIZE) := rfl

theorem chunkListAux_congr : ∀ (n : Nat) (s : Str) (fuel1 fuel2 : Nat),
    s.length ≤ n → s.length ≤ fuel1 → s.length ≤ fuel2 →
    chunkListAux fuel1 s = chunkListAux fuel2 s := by
  intro n
  induction n with
  | zero =>
    intro s f1 f2 h _ _
    have hs : s = [] := List.length_eq_zero.mp (Nat.le_zero.mp h)
    subst hs
    cases f1 <;> cases f2 <;> rfl
  | succ m ih =>
    intro s f1 f2 h h1 h2
    cases s with
    | nil => cases f1 <;> cases f2 <;> rfl
    | cons c cs =>
      cases f1 with
      | zero => rw [List.length_cons] at h1; omega
      | succ g1 =>
        cases f2 with
        | zero => rw [List.length_cons] at h2; omega
        | succ g2 =>
          rw [chunkListAux_succ_cons, chunkListAux_succ_cons]
          congr 1
          apply ih
          · simp only [List.length_drop, List.length_cons, MAX_CHUNK_SIZE]
            rw [List.length_cons] at h
            omega
          · simp only [List.length_drop, List.length_cons, MAX_CHUNK_SIZE]
            rw [List.length_cons] at h1
            omega
          · simp only [List.length_drop, List.length_cons, MAX_CHUNK_SIZE]
            rw [List.length_cons] at h2
            omega

theorem chunkList_cons : ∀ (s : Str), s ≠ [] →
    chunkList s = s.take MAX_CHUNK_SIZE :: chunkList (s.drop MAX_CHUNK_SIZE)
  | [], h => absurd rfl h
  | c :: cs, _ => by
    rw [chunkList, List.length_cons, chunkListAux_succ_cons, chunkList]
    congr 1
    apply chunkListAux_congr ((c :: cs).drop MAX_CHUNK_SIZE).length
      ((c :: cs).drop MAX_CHUNK_SIZE) cs.length ((c :: cs).drop MAX_CHUNK_SIZE).length
      le_rfl ?bnd le_rfl
    case bnd =>
      simp only [List.length_drop, List.length_cons, MAX_CHUNK_SIZE]
      omega

theorem chunkList_flatten : ∀ (n : Nat) (s : Str), s.length ≤ n →
    (chunkList s).flatten = s := by
  intro n
  induction n with
  | zero =>
    intro s h
    have hs : s = [] := List.length_eq_zero.mp (Nat.le_zero.mp h)
    subst hs
    rfl
  | succ m ih =>
    intro s h
    by_cases hs : s = []
    · subst hs; rfl
    · have hdrop : (s.drop MAX_CHUNK_SIZE).length ≤ m := by
        rw [List.length_drop]
        have hpos : 0 < s.length := List.length_pos.mpr hs
        simp only [MAX_CHUNK_SIZE]
        omega
      rw [chunkList_cons s hs, List.flatten_cons, ih (s.drop MAX_CHUNK_SIZE) hdrop,
        List.take_append_drop]

theorem chunkRows_parent (page : Option Nat) (ref : Option Str) (subty : Option Str)
    (marker : Str) (main_id : Nat) : ∀ (cs : List Str) (nid : Nat),
    ∀ r ∈ chunkRows page ref subty marker main_id nid cs, r.parent_id = some main_id := by
  intro cs
  induction cs with
  | nil => intro nid r hr; simp [chunkRows] at hr
  | cons c rest ih =>
    intro nid r hr
    rcases List.mem_cons.mp hr with h1 | h1
    · rw [h1]
    · exact ih (nid + 1) r h1

theorem chunkRows_texts (page : Option Nat) (ref : Option Str) (subty : Option Str)
    (marker : Str) (main_id : Nat) : ∀ (cs : List Str) (nid : Nat),
    (chunkRows page ref subty marker main_id nid cs).map Row.text = cs.map stripWs := by
  intro cs
  induction cs with
  | nil => intro nid; rfl
  | cons c rest ih =>
    intro nid
    simp only [chunkRows, List.map_cons, ih (nid + 1)]

theorem map_stripWs_id : ∀ l : List Str, (∀ c ∈ l, stripWs c = c) → l.map stripWs = l := by
  intro l
  induction l with
  | nil => intro _; rfl
  | cons c rest ih =>
    intro h
    rw [List.map_cons, h c (by simp), ih (fun d hd => h d (List.mem_cons_of_mem _ hd))]

theorem flush_new_rows (st : St) (hmk : st.current_marker_stack ≠ [])
    (hne : stripWs st.buffer ≠ []) :
    (flush_current_node st).1.db = st.db ++
      ({ id := st.db.length, page := st.current_page, doc_type := DOC_TYPE,
         ref_id := st.current_marker_stack.getLast?,
         parent_id := (if 2 ≤ st.current_id_stack.length then
           st.current_id_stack.getD (st.current_id_stack.length - 2) none else none),
         subtype := st.current_marker_stack.head?,
         marker := List.intercalate ['-'] st.current_marker_stack,
         text := stripWs ((chunkList (stripWs st.buffer)).headD []) } ::
       chunkRows st.current_page st.current_marker_stack.getLast?
         st.current_marker_stack.head? (List.intercalate ['-'] st.current_marker_stack)
         st.db.length (st.db.length + 1) (chunkList (stripWs st.buffer)).tail) := by
  unfold flush_current_node
  rw [if_neg hmk]
  dsimp only
  rw [if_neg hne]

theorem chunkList_length_17500 (t : Str) (h : t.length = 17500) :
    (chunkList t).length = 4 := by
  have h0 : t ≠ [] := by intro hh; rw [hh] at h; simp at h
  have hl1 : (t.drop MAX_CHUNK_SIZE).length = 12500 := by
    simp only [List.length_drop, MAX_CHUNK_SIZE]
    omega
  have h1 : t.drop MAX_CHUNK_SIZE ≠ [] := by
    intro hh; rw [hh] at hl1; simp at hl1
  have hl2 : ((t.drop MAX_CHUNK_SIZE).drop MAX_CHUNK_SIZE).length = 7500 := by
    simp only [List.length_drop, MAX_CHUNK_SIZE]
    omega
  have h2 : (t.drop MAX_CHUNK_SIZE).drop MAX_CHUNK_SIZE ≠ [] := by
    intro hh; rw [hh] at hl2; simp at hl2
  have hl3 : (((t.drop MAX_CHUNK_SIZE).drop MAX_CHUNK_SIZE).drop MAX_CHUNK_SIZE).length
      = 2500 := by
    simp only [List.length_drop, MAX_CHUNK_SIZE]
    omega
  have h3 : ((t.drop MAX_CHUNK_SIZE).drop MAX_CHUNK_SIZE).drop MAX_CHUNK_SIZE ≠ [] := by
    intro hh; rw [hh] at hl3; simp at hl3
  have hl4 : ((((t.drop MAX_CHUNK_SIZE).drop MAX_CHUNK_SIZE).drop
      MAX_CHUNK_SIZE).drop MAX_CHUNK_SIZE) = [] := by
    apply List.length_eq_zero.mp
    simp only [List.length_drop, MAX_CHUNK_SIZE]
    omega
  rw [chunkList_cons t h0, List.length_cons, chunkList_cons _ h1, List.length_cons,
    chunkList_cons _ h2, List.length_cons, chunkList_cons _ h3, List.length_cons, hl4]
  rfl

/-- C4 (amended): flushing a buffered node whose trimmed text has length
3.5 times the 5000-character chunk threshold (17500 characters) persists
exactly 4 rows, the 2nd through 4th each carrying parent_id equal to the
id assigned to the 1st; and concatenating the four rows' text bodies in
order reproduces the trimmed buffered text exactly whenever no chunk
begins or ends with whitespace (each chunk equals its own trim) — each
chunk is stripped again before insertion, so whitespace falling at a
chunk boundary is otherwise lost. -/
theorem claim_C4_chunk_round_trip (st : St)
    (hmk : st.current_marker_stack ≠ [])
    (hlen : (stripWs st.buffer).length = 17500) :
    ((flush_current_node st).1.db.drop st.db.length).length = 4 ∧
    (∀ r ∈ ((flush_current_node st).1.db.drop st.db.length).tail,
      r.parent_id =
        some ((((flush_current_node st).1.db.drop st.db.length).headD rowDefault).id)) ∧
    ((∀ c ∈ chunkList (stripWs st.buffer), stripWs c = c) →
      ((((flush_current_node st).1.db.drop st.db.length).map Row.text).flatten =
        stripWs st.buffer)) := by
  have hne : stripWs st.buffer ≠ [] := by
    intro h; rw [h] at hlen; simp at hlen
  rw [flush_new_rows st hmk hne, List.drop_left]
  refine ⟨?_, ?_, ?_⟩
  · rw [List.length_cons, chunkRows_length]
    have h4 := chunkList_length_17500 (stripWs st.buffer) hlen
    rw [List.length_tail, h4]
  · intro r hr
    rw [List.tail_cons] at hr
    rw [chunkRows_parent _ _ _ _ _ _ _ r hr]
    rfl
  · intro htrim
    have hcons : chunkList (stripWs st.buffer) =
        (stripWs st.buffer).take MAX_CHUNK_SIZE ::
          chunkList ((stripWs st.buffer).drop MAX_CHUNK_SIZE) :=
      chunkList_cons _ hne
    rw [List.map_cons, chunkRows_texts]
    rw [hcons, List.headD_cons, List.tail_cons]
    rw [htrim _ (by rw [hcons]; exact List.mem_cons_self _ _)]
    rw [map_stripWs_id _
      (fun c hc => htrim c (by rw [hcons]; exact List.mem_cons_of_mem _ hc))]
    rw [← hcons]
    exact chunkList_flatten (stripWs st.buffer).length _ le_rfl

theorem stripWs_cons_ws (c : Char) (hc : isPyWs c = true) (l : Str) :
    stripWs (c :: l) = stripWs l := by
  rw [stripWs, stripWs, List.dropWhile_cons, hc, if_pos rfl]

theorem getLast?_cons_of_ne (c : Char) (l : Str) (h : l ≠ []) :
    (c :: l).getLast? = l.getLast? := by
  cases l with
  | nil => exact absurd rfl h
  | cons d t => exact List.getLast?_cons_cons

theorem getLast?_replicate (c : Char) : ∀ n : Nat, n ≠ 0 →
    (List.replicate n c).getLast? = some c := by
  intro n
  induction n with
  | zero => intro h; exact absurd rfl h
  | succ m ih =>
    intro _
    cases m with
    | zero => simp
    | succ k =>
      rw [List.replicate_succ, getLast?_cons_of_ne c _ (by simp), ih (by omega)]

theorem headNotWs_append_left (l1 l2 : Str) (h1 : l1 ≠ []) (h : headNotWs l1) :
    headNotWs (l1 ++ l2) := by
  cases l1 with
  | nil => exact absurd rfl h1
  | cons c t => exact h

theorem headNotWs_replicate (c : Char) (hc : isPyWs c = false) (n : Nat) :
    headNotWs (List.replicate n c) := by
  cases n with
  | zero => trivial
  | succ m =>
    rw [List.replicate_succ]
    exact hc

theorem lastNotWs_replicate (c : Char) (hc : isPyWs c = false) (n : Nat) :
    lastNotWs (List.replicate n c) := by
  intro d hd
  cases n with
  | zero => simp at hd
  | succ m =>
    rw [getLast?_replicate c (m + 1) (by omega)] at hd
    rw [← Option.some.inj hd]
    exact hc

theorem stripWs_replicate (n : Nat) (c : Char) (hc : isPyWs c = false) :
    stripWs (List.replicate n c) = List.replicate n c := by
  rw [stripWs, dropWhile_eq_self_of_head _ (headNotWs_replicate c hc n),
    stripEnd_eq_self_of_last _ (lastNotWs_replicate c hc n)]

def c4GoodSt : St :=
  { initSt with
    current_marker_stack := [str ("4")]
    current_id_stack := [none]
    buffer := List.replicate 17500 'a' }

/-- Witness for C4 at a concrete node buffering 17500 identical
letters. -/
theorem claim_C4_chunk_round_trip_witness :
    (stripWs c4GoodSt.buffer).length = 17500 ∧
    (((flush_current_node c4GoodSt).1.db.drop c4GoodSt.db.length).length = 4 ∧
      (∀ r ∈ ((flush_current_node c4GoodSt).1.db.drop c4GoodSt.db.length).tail,
        r.parent_id = some
          ((((flush_current_node c4GoodSt).1.db.drop c4GoodSt.db.length).headD
            rowDefault).id)) ∧
      ((∀ c ∈ chunkList (stripWs c4GoodSt.buffer), stripWs c = c) →
        ((((flush_current_node c4GoodSt).1.db.drop c4GoodSt.db.length).map
          Row.text).flatten = stripWs c4GoodSt.buffer))) := by
  have hlen : (stripWs c4GoodSt.buffer).length = 17500 := by
    show (stripWs (List.replicate 17500 'a')).length = 17500
    rw [stripWs_replicate 17500 'a' (by decide), List.length_replicate]
  exact ⟨hlen, claim_C4_chunk_round_trip c4GoodSt (by decide) hlen⟩

theorem replicate_ne_nil (c : Char) (n : Nat) (h : n ≠ 0) : List.replicate n c ≠ [] := by
  intro hh
  have h2 := congrArg List.length hh
  rw [List.length_replicate, List.length_nil] at h2
  exact h h2

def c4BadSt : St :=
  { initSt with
    current_marker_stack := [str ("4")]
    current_id_stack := [none]
    buffer := List.replicate 5000 'a' ++ ' ' :: List.replicate 12499 'b' }

/-- C4 counterexample: a buffered node whose trimmed text has length
17500 but carries a space right at the first chunk boundary.  Each chunk
is stripped before insertion, so the boundary space is lost and the
concatenation of the persisted text bodies does not reproduce the trimmed
buffer. -/
theorem claim_C4_chunk_round_trip_counterexample :
    (stripWs c4BadSt.buffer).length = 17500 ∧
    ((((flush_current_node c4BadSt).1.db.drop c4BadSt.db.length).map Row.text).flatten ≠
      stripWs c4BadSt.buffer) := by
  have hbuf : c4BadSt.buffer =
      List.replicate 5000 'a' ++ ' ' :: List.replicate 12499 'b' := rfl
  have hhd : headNotWs c4BadSt.buffer := by
    rw [hbuf]
    exact headNotWs_append_left _ _ (replicate_ne_nil 'a' 5000 (by omega))
      (headNotWs_replicate 'a' (by decide) 5000)
  have hlast : lastNotWs c4BadSt.buffer := by
    intro d hd
    rw [hbuf, List.getLast?_append_of_ne_nil _ (List.cons_ne_nil _ _),
      getLast?_cons_of_ne ' ' _ (replicate_ne_nil 'b' 12499 (by omega)),
      getLast?_replicate 'b' 12499 (by omega)] at hd
    rw [← Option.some.inj hd]
    decide
  have hstrip : stripWs c4BadSt.buffer = c4BadSt.buffer := by
    rw [stripWs, dropWhile_eq_self_of_head _ hhd, stripEnd_eq_self_of_last _ hlast]
  have hlen : (stripWs c4BadSt.buffer).length = 17500 := by
    rw [hstrip, hbuf, List.length_append, List.length_cons, List.length_replicate,
      List.length_replicate]
  have hne : stripWs c4BadSt.buffer ≠ [] := by
    intro h
    rw [h, List.length_nil] at hlen
    exact absurd hlen (by norm_num)
  refine ⟨hlen, ?_⟩
  have hlen1 : (List.replicate 5000 'a' : Str).length = 5000 := List.length_replicate _ _
  have hc0 : c4BadSt.buffer.take MAX_CHUNK_SIZE = List.replicate 5000 'a' := by
    rw [hbuf]
    exact List.take_left' hlen1
  have hd1 : c4BadSt.buffer.drop MAX_CHUNK_SIZE = ' ' :: List.replicate 12499 'b' := by
    rw [hbuf]
    exact List.drop_left' hlen1
  have hc1 : (' ' :: List.replicate 12499 'b' : Str).take MAX_CHUNK_SIZE =
      ' ' :: List.replicate 4999 'b' := by
    show (' ' :: List.replicate 12499 'b' : Str).take (4999 + 1) = _
    rw [List.take_succ_cons, List.take_replicate,
      show (4999 : Nat) ⊓ 12499 = 4999 from by omega]
  have hd2 : (' ' :: List.replicate 12499 'b' : Str).drop MAX_CHUNK_SIZE =
      List.replicate 7500 'b' := by
    show (' ' :: List.replicate 12499 'b' : Str).drop (4999 + 1) = _
    rw [List.drop_succ_cons, List.drop_replicate,
      show (12499 : Nat) - 4999 = 7500 from by omega]
  have hc2 : (List.replicate 7500 'b' : Str).take MAX_CHUNK_SIZE =
      List.replicate 5000 'b' := by
    rw [show MAX_CHUNK_SIZE = 5000 from rfl, List.take_replicate,
      show (5000 : Nat) ⊓ 7500 = 5000 from by omega]
  have hd3 : (List.replicate 7500 'b' : Str).drop MAX_CHUNK_SIZE =
      List.replicate 2500 'b' := by
    rw [show MAX_CHUNK_SIZE = 5000 from rfl, List.drop_replicate,
      show (7500 : Nat) - 5000 = 2500 from by omega]
  have hc3 : (List.replicate 2500 'b' : Str).take MAX_CHUNK_SIZE =
      List.replicate 2500 'b' := by
    rw [show MAX_CHUNK_SIZE = 5000 from rfl, List.take_replicate,
      show (5000 : Nat) ⊓ 2500 = 2500 from by omega]
  have hd4 : (List.replicate 2500 'b' : Str).drop MAX_CHUNK_SIZE = [] := by
    rw [show MAX_CHUNK_SIZE = 5000 from rfl, List.drop_replicate,
      show (2500 : Nat) - 5000 = 0 from by omega]
    rfl
  have hchunks : chunkList c4BadSt.buffer =
      [List.replicate 5000 'a', ' ' :: List.replicate 4999 'b',
       List.replicate 5000 'b', List.replicate 2500 'b'] := by
    rw [chunkList_cons _ (by
        rw [hbuf]
        intro hh
        exact replicate_ne_nil 'a' 5000 (by omega) (List.append_eq_nil.mp hh).1),
      hc0, hd1,
      chunkList_cons _ (List.cons_ne_nil _ _), hc1, hd2,
      chunkList_cons _ (replicate_ne_nil 'b' 7500 (by omega)), hc2, hd3,
      chunkList_cons _ (replicate_ne_nil 'b' 2500 (by omega)), hc3, hd4]
    rfl
  have htexts : (((flush_current_node c4BadSt).1.db.drop c4BadSt.db.length).map
      Row.text) =
      [List.replicate 5000 'a', List.replicate 4999 'b',
       List.replicate 5000 'b', List.replicate 2500 'b'] := by
    rw [flush_new_rows c4BadSt (by decide) hne, List.drop_left, List.map_cons,
      chunkRows_texts, hstrip, hchunks]
    rw [List.headD_cons, List.tail_cons]
    rw [stripWs_replicate 5000 'a' (by decide), List.map_cons,
      stripWs_cons_ws ' ' (by decide), stripWs_replicate 4999 'b' (by decide),
      List.map_cons, stripWs_replicate 5000 'b' (by decide), List.map_cons,
      stripWs_replicate 2500 'b' (by decide), List.map_nil]
  intro heq
  rw [htexts] at heq
  have hlens := congrArg List.length heq
  rw [hlen, List.flatten_cons, List.flatten_cons, List.flatten_cons, List.flatten_cons,
    List.flatten_nil, List.length_append, List.length_append, List.length_append,
    List.length_append, List.length_replicate, List.length_replicate,
    List.length_replicate, List.length_replicate, List.length_nil] at hlens
  omega

-- ### Claim C9: configuration validation

/-- C9: the script performs no fail-fast configuration validation.  At
the failing input — general_note rows with identifiers 4 and 4., both
normalizing to the same key 4 — the dict comprehension building the
header lookup succeeds silently, keeping only the later row, instead of
aborting at startup; and SKIP_RANGES is a hard-coded literal with no
start/end check anywhere in the script. -/
theorem claim_C9_no_fail_fast_on_duplicates :
    buildHeaders [(str ("4"), str ("A")), (str ("4."), str ("B"))] =
      [(str ("4"), str ("B"))] ∧
    (∀ r ∈ SKIP_RANGES, r.1 < r.2) := by
  constructor
  · decide
  · decide
